import Mathlib

/-!
# Verification of the SlyCat bundler/unbundler (src/slycat.py)

This file gives a shallow embedding, over `List Char`, of the core of
`slycat.py`: the glob matcher (`fnmatch`), the text/binary classifier
(`is_text_file`), the traversal (`traverse_and_concatenate`), the encoder
(`write_file_to_output`), the pre-flight checks of
`concatenate_files_and_folders`, and the decoder (`slice_files`), including
faithful embeddings of the `posixpath` primitives the script calls
(`normpath`, `join`, `basename`, `dirname`, `splitext`, `relpath`,
`str.strip`, `str.split('/')`).  Filesystem trees are modelled by the
inductive `FSNode`/`FSChildren`; reading a file yields its modelled content
(the development restricts byte-level fidelity to ASCII contents where the
utf-8 read in the script is the identity on bytes).

Text is modelled as `List Char` throughout; Python `os.sep` is `'/'`
(the script targets POSIX path semantics; `replace(os.sep, '/')` is the
identity there).
-/

namespace SlyCat

/-- Text, as the Python `str` values the script manipulates. -/
abbrev Str := List Char

/-- ASCII whitespace as recognised by Python's `str.strip` / regex `\s`. -/
def isPySpace (c : Char) : Bool :=
  c = ' ' || c = '\t' || c = '\n' || c = '\r' || c = '\x0b' || c = '\x0c'

/-- ASCII word characters, regex `\w` (the script only meets ASCII tags). -/
def isWordChar (c : Char) : Bool :=
  ('a' ≤ c && c ≤ 'z') || ('A' ≤ c && c ≤ 'Z') || ('0' ≤ c && c ≤ '9') || c = '_'

/-- Python string `<` (lexicographic by code point), used by `sorted`. -/
def lexLt : Str → Str → Bool
  | [], [] => false
  | [], _ :: _ => true
  | _ :: _, [] => false
  | a :: as, b :: bs =>
    if a.toNat < b.toNat then true
    else if b.toNat < a.toNat then false
    else lexLt as bs

/-- Python `s.split('/')` (note `''.split('/') = ['']`). -/
def splitSlash : Str → List Str
  | [] => [[]]
  | c :: t =>
    match splitSlash t with
    | [] => [[c]]
    | h :: hs => if c = '/' then [] :: h :: hs else (c :: h) :: hs

/-- Python `'/'.join(comps)`. -/
def joinSlash : List Str → Str
  | [] => []
  | [x] => x
  | x :: y :: xs => x ++ '/' :: joinSlash (y :: xs)

/-- Python `str.strip()` restricted to ASCII whitespace. -/
def pyStrip (s : Str) : Str :=
  ((s.dropWhile isPySpace).reverse.dropWhile isPySpace).reverse

/-- `posixpath.isabs`. -/
def isabs : Str → Bool
  | [] => false
  | c :: _ => c = '/'

/-- The component loop of `posixpath.normpath`: skip `''` and `'.'`,
resolve `'..'` against the accumulated components. -/
def normSteps (initialSlashes : Bool) (acc : List Str) : List Str → List Str
  | [] => acc
  | comp :: rest =>
    if comp = [] ∨ comp = ['.'] then normSteps initialSlashes acc rest
    else if comp ≠ ['.', '.'] ∨ (initialSlashes = false ∧ acc = [])
            ∨ (acc ≠ [] ∧ acc.getLast? = some ['.', '.']) then
      normSteps initialSlashes (acc ++ [comp]) rest
    else if acc ≠ [] then normSteps initialSlashes acc.dropLast rest
    else normSteps initialSlashes acc rest

/-- The number of leading slashes `posixpath.normpath` preserves (POSIX
keeps exactly two initial slashes, otherwise collapses them to one). -/
def initialSlashes (p : Str) : Nat :=
  if isabs p then
    if ['/', '/'].isPrefixOf p ∧ ¬ ['/', '/', '/'].isPrefixOf p then 2 else 1
  else 0

/-- `posixpath.normpath`. -/
def normpath (p : Str) : Str :=
  if p = [] then ['.']
  else if List.replicate (initialSlashes p) '/' ++
      joinSlash (normSteps (initialSlashes p ≠ 0) [] (splitSlash p)) = [] then ['.']
  else List.replicate (initialSlashes p) '/' ++
    joinSlash (normSteps (initialSlashes p ≠ 0) [] (splitSlash p))

/-- `posixpath.join` for two arguments. -/
def posixJoin (a b : Str) : Str :=
  if isabs b then b
  else if a = [] ∨ a.getLast? = some '/' then a ++ b
  else a ++ '/' :: b

/-- `posixpath.basename`: everything after the last `'/'`. -/
def basename (p : Str) : Str :=
  (p.reverse.takeWhile (· ≠ '/')).reverse

/-- `posixpath.dirname`: everything up to the last `'/'`, with trailing
slashes stripped unless the result is all slashes. -/
def dirname (p : Str) : Str :=
  let head := (p.reverse.dropWhile (· ≠ '/')).reverse
  if head = [] ∨ head.all (· = '/') then head
  else (head.reverse.dropWhile (· = '/')).reverse

/-- The extension part of `posixpath.splitext`: the suffix from the last
dot of the basename, unless only leading dots precede it. -/
def extOf (p : Str) : Str :=
  let b := basename p
  let rest := b.drop (b.takeWhile (· = '.')).length
  let revTail := rest.reverse.takeWhile (· ≠ '.')
  if revTail.length = rest.length then [] else '.' :: revTail.reverse

/-- Python `str.lower()` (ASCII). -/
def lowerStr (s : Str) : Str := s.map Char.toLower

/-! ## fnmatch

`fnmatch.fnmatch(name, pat)` on POSIX (`normcase` is the identity)
translates the glob to a regex and requires a full match.  `globMatch`
implements the translated semantics directly: `*` matches any sequence,
`?` any single character, `[...]` a character class (leading `!` negates;
a `]` right after `[`/`[!` is a literal member; `x-y` is a code-point
range; an unterminated `[` is a literal `[`). -/

/-- Split a class body at the first `']'`; `none` if unterminated. -/
def splitAtRB : Str → Option (Str × Str)
  | [] => none
  | ']' :: r => some ([], r)
  | c :: r => (splitAtRB r).map (fun p => (c :: p.1, p.2))

/-- Membership of a character in a class body (ranges and literals). -/
def memClass (c : Char) : Str → Bool
  | x :: '-' :: y :: rest => (x ≤ c && c ≤ y) || memClass c rest
  | x :: rest => (c = x) || memClass c rest
  | [] => false

/-- Parse the body after `'['`: negation flag, members, remaining pattern. -/
def parseClassBody (p : Str) : Option (Bool × Str × Str) :=
  let neg : Bool × Str := match p with
    | '!' :: q => (true, q)
    | _ => (false, p)
  match neg.2 with
  | ']' :: q' => (splitAtRB q').map (fun pr => (neg.1, ']' :: pr.1, pr.2))
  | q => (splitAtRB q).map (fun pr => (neg.1, pr.1, pr.2))

/-- The glob matcher's recursion, on explicit fuel so that it is
structural (hence kernel-computable).  Every recursive call strictly
decreases `pat.length + s.length`, so the fuel `globMatch` supplies is
never exhausted and the `0` branch is unreachable. -/
def globGo : Nat → Str → Str → Bool
  | 0, _, _ => false
  | fuel + 1, pat, s =>
    match pat, s with
    | [], s => s.isEmpty
    | '*' :: p, s =>
      globGo fuel p s ||
        (match s with
         | [] => false
         | _ :: s' => globGo fuel ('*' :: p) s')
    | '?' :: p, s =>
      match s with
      | [] => false
      | _ :: s' => globGo fuel p s'
    | '[' :: p, s =>
      match parseClassBody p with
      | none =>
        match s with
        | '[' :: s' => globGo fuel p s'
        | _ => false
      | some (neg, items, rest) =>
        match s with
        | [] => false
        | c :: s' =>
          (if neg then !(memClass c items) else memClass c items) && globGo fuel rest s'
    | c :: p, s =>
      match s with
      | c' :: s' => (c = c') && globGo fuel p s'
      | [] => false

/-- The glob matcher: does `pat` match all of `s`? -/
def globMatch (pat s : Str) : Bool :=
  globGo (pat.length + s.length + 1) pat s

/-- `fnmatch.fnmatch(name, pat)` (POSIX). -/
def fnmatchL (name pat : Str) : Bool := globMatch pat name

/-! ## Filters and the text/binary classifier -/

/-- `should_include` from the script: with no patterns everything is
included; otherwise the full path or the basename must match a pattern.
(The `is_dir` parameter is accepted and, as in the source, unused.) -/
def should_include (itemPath : Str) (includes : List Str) (_isDir : Bool) : Bool :=
  if includes = [] then true
  else includes.any fun pat =>
    fnmatchL itemPath pat || fnmatchL (basename itemPath) pat

/-- `should_exclude` from the script: full-path match, basename match, or
(for directories) a `/`-suffixed pattern against the slash-suffixed path. -/
def should_exclude (itemPath : Str) (exclusions : List Str) (isDir : Bool) : Bool :=
  exclusions.any fun pat =>
    fnmatchL itemPath pat || fnmatchL (basename itemPath) pat ||
      (isDir && pat.getLast? == some '/' && fnmatchL (itemPath ++ ['/']) pat)

/-- The known-binary extension set of `is_text_file`. -/
def binary_extensions : List Str :=
  [".jpg".toList, ".jpeg".toList, ".png".toList, ".gif".toList, ".bmp".toList,
   ".tiff".toList, ".ico".toList,
   ".mp3".toList, ".wav".toList, ".ogg".toList, ".flac".toList, ".aac".toList,
   ".mp4".toList, ".avi".toList, ".mov".toList, ".mkv".toList, ".webm".toList,
   ".zip".toList, ".rar".toList, ".7z".toList, ".tar".toList, ".gz".toList,
   ".bz2".toList, ".xz".toList,
   ".exe".toList, ".dll".toList, ".so".toList, ".o".toList, ".pyc".toList,
   ".pyd".toList,
   ".class".toList, ".jar".toList, ".war".toList,
   ".pdf".toList, ".doc".toList, ".docx".toList, ".xls".toList, ".xlsx".toList,
   ".ppt".toList, ".pptx".toList,
   ".db".toList, ".sqlite".toList, ".sqlite3".toList,
   ".woff".toList, ".woff2".toList, ".ttf".toList, ".otf".toList, ".eot".toList]

/-- Count of control bytes other than tab, newline, carriage return. -/
def controlCount (chunk : List Nat) : Nat :=
  (chunk.filter fun b => decide (b < 32) && !(b == 9) && !(b == 10) && !(b == 13)).length

/-- `is_text_file`.  `readChunk` models `open(...,'rb').read(4096)`:
`none` when the open/read raises, otherwise the first chunk of bytes
(call sites pass the first 4096 bytes).  The Python comparison
`control_chars / len(chunk) > 0.1` is float division; for the reachable
sizes (`1 ≤ len ≤ 4096`) the rounding error of the division (≈1e-16) and
of the literal `0.1` (≈6e-18) are far below the least possible gap
between `control_chars/len` and `1/10` (≈2.4e-5), so the float test is
exactly the rational test `10 * control_chars > len` embedded here. -/
def is_text_file (filePath : Str) (readChunk : Option (List Nat)) : Bool :=
  if binary_extensions.contains (lowerStr (extOf filePath)) then false
  else
    match readChunk with
    | none => false
    | some chunk =>
      if chunk = [] then true
      else if chunk.contains 0 then false
      else if 10 * controlCount chunk > chunk.length then false
      else true

/-! ## The encoder (`write_file_to_output`) -/

/-- `CODE_FENCE_LOOKUP` from the script. -/
def CODE_FENCE_LOOKUP : List (Str × Str) :=
  [(".py".toList, "python".toList), (".js".toList, "javascript".toList),
   (".html".toList, "html".toList), (".css".toList, "css".toList),
   (".sh".toList, "bash".toList), (".java".toList, "java".toList),
   (".cpp".toList, "c++".toList), (".c".toList, "c".toList),
   (".json".toList, "json".toList), (".yml".toList, "yaml".toList),
   (".yaml".toList, "yaml".toList), (".xml".toList, "xml".toList),
   (".rb".toList, "ruby".toList), (".rs".toList, "rust".toList),
   (".go".toList, "go".toList), (".md".toList, "markdown".toList),
   (".txt".toList, "text".toList), (".ini".toList, "ini".toList),
   (".cfg".toList, "ini".toList)]

/-- `dict.get(key, default)` over an association list. -/
def lookupDefault (table : List (Str × Str)) (key dflt : Str) : Str :=
  match table.find? (fun kv => kv.1 == key) with
  | some kv => kv.2
  | none => dflt

/-- `CODE_FENCE_LOOKUP.get(ext.lower(), "text")`. -/
def langOf (filePath : Str) : Str :=
  lookupDefault CODE_FENCE_LOOKUP (lowerStr (extOf filePath)) "text".toList

/-- `posixpath.abspath`, with the process working directory `cwd` as an
explicit parameter (an absolute path string). -/
def abspath (cwd p : Str) : Str :=
  if isabs p then normpath p else normpath (posixJoin cwd p)

/-- Length of the common prefix of two component lists
(`posixpath.commonprefix` on lists). -/
def commonPrefixLen : List Str → List Str → Nat
  | a :: as, b :: bs => if a = b then commonPrefixLen as bs + 1 else 0
  | _, _ => 0

/-- `posixpath.relpath(p, start)` (parameterised by the working directory). -/
def relpath (cwd p start : Str) : Str :=
  let startList := (splitSlash (abspath cwd start)).filter (· ≠ [])
  let pathList := (splitSlash (abspath cwd p)).filter (· ≠ [])
  let i := commonPrefixLen startList pathList
  let relList := List.replicate (startList.length - i) ['.', '.'] ++ pathList.drop i
  if relList = [] then ['.'] else joinSlash relList

/-- The relative path the encoder prints in an entry header:
`relpath(file, base)`, prefixed with the base folder's own name when
that is neither empty nor `'.'` (else normalised).  `replace(os.sep,'/')`
is the identity on POSIX. -/
def encodedRelPath (cwd filePath baseFolder : Str) : Str :=
  let relPath0 := relpath cwd filePath baseFolder
  let baseFolderName := basename (normpath baseFolder)
  if baseFolderName ≠ [] ∧ baseFolderName ≠ ['.'] then posixJoin baseFolderName relPath0
  else normpath relPath0

/-- `write_file_to_output`: the text appended to the output file for one
file, given its (already decoded) text content.  The script tries
utf-8/latin-1/ascii readers; on the ASCII contents this development
models, the utf-8 read succeeds and yields the modelled content. -/
def write_file_to_output (cwd filePath baseFolder : Str) (content : Str) : Str :=
  "### **`".toList ++ encodedRelPath cwd filePath baseFolder ++ "`**\n\n```".toList
    ++ langOf filePath ++ '\n' :: content ++ "\n```\n\n".toList

/-! ## Filesystem model and the traversal -/

mutual
/-- A filesystem object: a regular file with its text content (the
development models ASCII contents, where the byte string is the
code-point string), or a directory. -/
inductive FSNode where
  | file (content : Str)
  | dir (children : FSChildren)
  deriving DecidableEq
/-- Directory entries: named children in directory-listing order. -/
inductive FSChildren where
  | nil
  | cons (name : Str) (node : FSNode) (rest : FSChildren)
  deriving DecidableEq
end

/-- `os.path.isdir` on a modelled node. -/
def nodeIsDir : FSNode → Bool
  | .file _ => false
  | .dir _ => true

/-- The bytes `open(path,'rb').read(4096)` returns for a modelled file. -/
def fileChunk (content : Str) : List Nat :=
  (content.map Char.toNat).take 4096

/-- What one `traverse_and_concatenate` call produces: the text written to
the output file, and the paths added to the `processed_files`,
`skipped_files` and `excluded_items` sets (modelled as lists in insertion
order; the script only uses membership and size). -/
structure TravResult where
  out : Str
  processed : List Str
  skipped : List Str
  excluded : List Str
  deriving DecidableEq

def TravResult.app (a b : TravResult) : TravResult :=
  ⟨a.out ++ b.out, a.processed ++ b.processed, a.skipped ++ b.skipped,
   a.excluded ++ b.excluded⟩

def emptyTR : TravResult := ⟨[], [], [], []⟩

def concatTR (l : List TravResult) : TravResult :=
  l.foldr TravResult.app emptyTR

/-- Stable insertion into a name-sorted list (`x` goes before `y` iff
`x ≤ y` in Python string order), matching Python's stable `sorted`. -/
def insertByName {α : Type} (x : Str × α) : List (Str × α) → List (Str × α)
  | [] => [x]
  | y :: ys => if lexLt y.1 x.1 then y :: insertByName x ys else x :: y :: ys

/-- Stable sort by name, as `sorted(os.listdir(...))`. -/
def sortPairsBy {α : Type} : List (Str × α) → List (Str × α)
  | [] => []
  | x :: xs => insertByName x (sortPairsBy xs)

mutual
/-- `traverse_and_concatenate`.  The script sorts the child names and then
recurses in sorted order; here each child is traversed and the (name,
result) pairs are stably sorted by name before concatenation, which
yields the same output since a child's result depends only on the child
and its path. -/
def traverseNode (cwd : Str) (excl incl : List Str) (baseFolder : Str) :
    FSNode → Str → TravResult
  | node, currentPath =>
    if should_exclude currentPath excl (nodeIsDir node) then
      ⟨[], [], [], [currentPath]⟩
    else if incl ≠ [] ∧ should_include currentPath incl (nodeIsDir node) = false then
      match node with
      | .dir ch =>
        concatTR ((sortPairsBy (traverseChildren cwd excl incl baseFolder ch currentPath)).map
          Prod.snd)
      | .file _ => emptyTR
    else
      match node with
      | .dir ch =>
        concatTR ((sortPairsBy (traverseChildren cwd excl incl baseFolder ch currentPath)).map
          Prod.snd)
      | .file content =>
        if is_text_file currentPath (some (fileChunk content)) then
          ⟨write_file_to_output cwd currentPath baseFolder content, [currentPath], [], []⟩
        else ⟨[], [], [currentPath], []⟩
/-- Traverse each child of a directory at its `os.path.join`ed path. -/
def traverseChildren (cwd : Str) (excl incl : List Str) (baseFolder : Str) :
    FSChildren → Str → List (Str × TravResult)
  | .nil, _ => []
  | .cons name node rest, currentPath =>
    (name, traverseNode cwd excl incl baseFolder node (posixJoin currentPath name)) ::
      traverseChildren cwd excl incl baseFolder rest currentPath
end

/-! ## `concatenate_files_and_folders` -/

/-- `default_venv_patterns` from the script. -/
def default_venv_patterns : List Str :=
  ["venv".toList, ".venv".toList, "**/site-packages".toList, "__pycache__".toList,
   "*.pyc".toList, ".git".toList, ".hg".toList, ".svn".toList,
   "node_modules".toList, ".DS_Store".toList]

/-- The pre-flight checks of `concatenate_files_and_folders` before the
output file is opened for writing: `some msg` aborts the run
(`handle_error`), `none` proceeds.  `pathExists` models
`os.path.exists`. -/
def concatPreflight (outputName : Str) (paths : List Str) (force : Bool)
    (pathExists : Str → Bool) : Option Str :=
  if pathExists (normpath outputName) && !force then
    if (paths.map normpath).contains (normpath outputName) then
      some "output file is also an input path".toList
    else some "output file already exists".toList
  else none

/-- An input argument to an encode run: its path and the filesystem object
found there (the model covers existing inputs; a missing path is only a
skipped warning in the script). -/
structure InputItem where
  path : Str
  node : FSNode

/-- The base folder used for relative paths: the containing directory for
a file argument (`'.'` when it has none), the directory itself otherwise. -/
def baseFolderFor (pArg : Str) (n : FSNode) : Str :=
  match n with
  | .file _ => let d := dirname pArg; if d = [] then ['.'] else d
  | .dir _ => pArg

/-- The body of an encode run after pre-flight: traverse each input path
(normalised) with the effective exclusion list. -/
def concatenateBody (cwd : Str) (effExcl incl : List Str)
    (inputs : List InputItem) : TravResult :=
  concatTR (inputs.map fun it =>
    traverseNode cwd effExcl incl (baseFolderFor (normpath it.path) it.node) it.node
      (normpath it.path))

/-- The full text written to the output file by an encode run (the
optional AI preamble followed by the traversal output).  The effective
exclusion list (user patterns merged with `default_venv_patterns` through
a Python set) is passed explicitly; its order is internal
nondeterminism. -/
def concatenateOutput (cwd : Str) (effExcl incl : List Str) (addPrompt : Bool)
    (inputs : List InputItem) (promptText : Str) : Str :=
  (if addPrompt then promptText else []) ++ (concatenateBody cwd effExcl incl inputs).out

/-- A whole encode run: pre-flight, then the output text. -/
def concatRun (cwd outputName : Str) (inputs : List InputItem) (force : Bool)
    (effExcl incl : List Str) (addPrompt : Bool) (pathExists : Str → Bool)
    (promptText : Str) : Except Str Str :=
  match concatPreflight outputName (inputs.map InputItem.path) force pathExists with
  | some e => .error e
  | none => .ok (concatenateOutput cwd effExcl incl addPrompt inputs promptText)

/-! ## The decoder (`slice_files`)

The decode regex, applied with `re.finditer(..., re.MULTILINE)`, is

    ^\s*###\s*\*\*`([^`]+)`\*\*\s*$\n+```(?:(\w*|\S*)\n)?([\s\S]*?)\n```

`matchAt` implements one match attempt at a line start, following the
backtracking engine:

* the three `\s*` runs are maximal whitespace runs (each is followed by a
  non-whitespace literal, so no shorter run can succeed);
* `([^`]+)` greedily captures everything up to the next backtick;
* `\s*$\n+` succeeds exactly when the maximal whitespace run after the
  closing `**` is nonempty and ends with a newline immediately before the
  fence (a `$` inside the run plus `\n+` up to its end);
* the optional language group first tries `\w*` then `\S*`, each having
  to be followed by a newline (only the maximal run can be, since neither
  class contains the newline), then falls back to no language line;
* the lazy `([\s\S]*?)\n``` ` captures up to the first `"\n```"`.

`scanEntries` then reproduces `finditer`: attempts at successive line
starts (the pattern starts with `^`, so only those can match), resuming
after the end of each reported match. -/

/-- `AI_INSTRUCTION_PROMPT` from the script (the Python source `\`` is a
literal backslash followed by a backtick). -/
def AI_INSTRUCTION_PROMPT : Str :=
  ("\n> **AI Instruction:**\n> The following code represents a software project, with each file presented below its corresponding path header.\n>\n> Please adhere strictly to the following format when generating responses or modifications:\n> 1.  Use a header line exactly like `### **\\`path/to/file.ext\\`**` before each file's content. Replace `path/to/file.ext` with the actual relative path.\n> 2.  Enclose all code blocks within triple backticks (```) specifying the language identifier (e.g., ```python, ```javascript, ```html, etc.). If the language is unknown or plain text, you can omit it or use ```text.\n>\n> Maintaining this exact structure is crucial for parsing your response correctly. Thank you!\n\n\n\n").toList

/-- The fixed marker line that identifies the preamble. -/
def prompt_marker : Str := "> **AI Instruction:**".toList

/-- Python `s.find(pat)`: index of the first occurrence, `none` for -1. -/
def findSub (pat : Str) : Str → Option Nat
  | [] => if pat = [] then some 0 else none
  | c :: t => if pat.isPrefixOf (c :: t) then some 0 else (findSub pat t).map (· + 1)

/-- The preamble-skipping prologue of `slice_files`: if the stripped
content starts with the marker, cut everything up to (and including) the
first blank line (`"\n\n"`) after the marker position; on any failure to
locate it, keep the full content. -/
def skipPrompt (content : Str) : Str :=
  if prompt_marker.isPrefixOf (content.dropWhile isPySpace) then
    match (findSub "\n\n".toList
        (content.drop ((findSub prompt_marker content).getD 0))).map
        (· + (findSub prompt_marker content).getD 0) with
    | some e => if e + 2 > 1 then content.drop (e + 2) else content
    | none => content
  else content

/-- Maximal whitespace run and the rest. -/
def skipWs (s : Str) : Str × Str := (s.takeWhile isPySpace, s.dropWhile isPySpace)

/-- Consume a literal token. -/
def expectTok (tok s : Str) : Option Str :=
  if tok.isPrefixOf s then some (s.drop tok.length) else none

/-- Greedy `([^`]+)` followed by the closing backtick. -/
def takePath (s : Str) : Option (Str × Str) :=
  if s.takeWhile (· ≠ '`') = [] then none
  else
    match s.drop (s.takeWhile (· ≠ '`')).length with
    | '`' :: rest => some (s.takeWhile (· ≠ '`'), rest)
    | _ => none

/-- Does `s` start with `"\n```"`? -/
def isFence (s : Str) : Bool := s.take 4 == "\n```".toList

/-- Index of the first occurrence of `"\n```"`. -/
def findFence : Str → Option Nat
  | [] => none
  | c :: t => if isFence (c :: t) then some 0 else (findFence t).map (· + 1)

/-- Lazy content capture: everything before the first `"\n```"`, and the
rest after the whole closing fence. -/
def contentFrom (v : Str) : Option (Str × Str) :=
  (findFence v).map fun i => (v.take i, v.drop (i + 4))

/-- One language-group alternative: a run of `k` characters followed by a
newline, then the content capture. -/
def tryLangAt (u : Str) (k : Nat) : Option (Str × Str) :=
  if u.get? k = some '\n' then contentFrom (u.drop (k + 1)) else none

/-- The optional `(?:(\w*|\S*)\n)?` group followed by the lazy content:
try the maximal `\w*` run, then the maximal `\S*` run, then no language
line at all. -/
def langContent (u : Str) : Option (Str × Str) :=
  match tryLangAt u (u.takeWhile isWordChar).length with
  | some r => some r
  | none =>
    match tryLangAt u (u.takeWhile (fun c => !isPySpace c)).length with
    | some r => some r
    | none => contentFrom u

/-- One attempt of the decode pattern at a line start: on success, the
captured path (group 1), the captured content (group 3), and the text
after the match. -/
def matchAt (s : Str) : Option (Str × Str × Str) :=
  match expectTok "###".toList (skipWs s).2 with
  | none => none
  | some s2 =>
    match expectTok "**".toList (skipWs s2).2 with
    | none => none
    | some s4 =>
      match expectTok "`".toList s4 with
      | none => none
      | some s5 =>
        match takePath s5 with
        | none => none
        | some (path, s6) =>
          match expectTok "**".toList s6 with
          | none => none
          | some s7 =>
            if (skipWs s7).1.getLast? = some '\n' then
              match expectTok "```".toList (skipWs s7).2 with
              | none => none
              | some s9 =>
                match langContent s9 with
                | none => none
                | some (content, rest) => some (path, content, rest)
            else none

/-! Length bounds, used for the termination of the `finditer` scan. -/

theorem length_dropWhile_le {p : Char → Bool} (s : Str) :
    (s.dropWhile p).length ≤ s.length := by
  induction s with
  | nil => simp [List.dropWhile]
  | cons c t ih =>
    simp only [List.dropWhile]
    cases p c
    · simp
    · simp
      omega

theorem length_takeWhile_below {p : Char → Bool} (s : Str) :
    (s.takeWhile p).length ≤ s.length := by
  induction s with
  | nil => simp [List.takeWhile]
  | cons c t ih =>
    simp only [List.takeWhile]
    cases p c
    · simp
    · simp
      omega

theorem expectTok_length {tok s r : Str} (h : expectTok tok s = some r) :
    r.length ≤ s.length := by
  unfold expectTok at h
  split at h
  · cases h
    simp [List.length_drop]
  · exact Option.noConfusion h

theorem takePath_length {s p r : Str} (h : takePath s = some (p, r)) :
    r.length < s.length := by
  unfold takePath at h
  split at h
  · exact Option.noConfusion h
  · rename_i hp
    split at h
    · rename_i rest heq
      cases h
      have h2 : (s.drop (s.takeWhile (· ≠ '`')).length).length ≤ s.length := by
        simp [List.length_drop]
      rw [heq] at h2
      have h3 : (s.takeWhile (· ≠ '`')).length ≠ 0 := by
        simpa [List.length_eq_zero] using hp
      have h4 : (s.drop (s.takeWhile (· ≠ '`')).length).length =
          s.length - (s.takeWhile (· ≠ '`')).length := by
        simp [List.length_drop]
      have h5 : (s.takeWhile (· ≠ '`')).length ≤ s.length :=
        length_takeWhile_below s
      rw [heq] at h4
      simp at h2 h4
      omega
    · exact Option.noConfusion h

theorem contentFrom_length {v c r : Str} (h : contentFrom v = some (c, r)) :
    r.length ≤ v.length := by
  unfold contentFrom at h
  cases hf : findFence v with
  | none => rw [hf] at h; exact Option.noConfusion h
  | some i =>
    rw [hf] at h
    simp at h
    rw [← h.2]
    simp [List.length_drop]

theorem tryLangAt_length {u c r : Str} {k : Nat} (h : tryLangAt u k = some (c, r)) :
    r.length ≤ u.length := by
  unfold tryLangAt at h
  split at h
  · have h1 := contentFrom_length h
    have h2 : (u.drop (k + 1)).length ≤ u.length := by simp [List.length_drop]
    omega
  · exact Option.noConfusion h

theorem langContent_length {u c r : Str} (h : langContent u = some (c, r)) :
    r.length ≤ u.length := by
  unfold langContent at h
  cases h1 : tryLangAt u (u.takeWhile isWordChar).length with
  | some x =>
    rw [h1] at h
    cases h
    exact tryLangAt_length h1
  | none =>
    rw [h1] at h
    cases h2 : tryLangAt u (u.takeWhile (fun c => !isPySpace c)).length with
    | some x =>
      rw [h2] at h
      cases h
      exact tryLangAt_length h2
    | none =>
      rw [h2] at h
      exact contentFrom_length h

theorem matchAt_length {s p c rest : Str} (h : matchAt s = some (p, c, rest)) :
    rest.length < s.length := by
  unfold matchAt at h
  split at h
  · exact Option.noConfusion h
  rename_i s2 h1
  split at h
  · exact Option.noConfusion h
  rename_i s4 h2
  split at h
  · exact Option.noConfusion h
  rename_i s5 h3
  split at h
  · exact Option.noConfusion h
  rename_i path s6 h4
  split at h
  · exact Option.noConfusion h
  rename_i s7 h5
  split at h
  · split at h
    · exact Option.noConfusion h
    rename_i s9 h6
    split at h
    · exact Option.noConfusion h
    rename_i content' rest' h7
    cases h
    have l7 := langContent_length h7
    have l6 := expectTok_length h6
    have l5d : (skipWs s7).2.length ≤ s7.length := length_dropWhile_le s7
    have l5 := expectTok_length h5
    have l4 := takePath_length h4
    have l3 := expectTok_length h3
    have l2 := expectTok_length h2
    have l2d : (skipWs s2).2.length ≤ s2.length := length_dropWhile_le s2
    have l1 := expectTok_length h1
    have l1d : (skipWs s).2.length ≤ s.length := length_dropWhile_le s
    omega
  · exact Option.noConfusion h

/-- The `finditer` scan on explicit fuel (structural, hence
kernel-computable).  A successful match strictly shortens the remaining
text (`matchAt_length`) and a failed attempt consumes one character, so
any fuel above `s.length` never runs out (`scanFuel_congr`). -/
def scanFuel : Nat → Bool → Str → List (Str × Str)
  | 0, _, _ => []
  | fuel + 1, true, s =>
    match matchAt s, s with
    | some (p, c, rest), _ => (p, c) :: scanFuel fuel false rest
    | none, [] => []
    | none, ch :: t => scanFuel fuel (ch == '\n') t
  | fuel + 1, false, s =>
    match s with
    | [] => []
    | ch :: t => scanFuel fuel (ch == '\n') t

theorem scanFuel_succ_true (fuel : Nat) (s : Str) :
    scanFuel (fuel + 1) true s =
      match matchAt s, s with
      | some (p, c, rest), _ => (p, c) :: scanFuel fuel false rest
      | none, [] => []
      | none, ch :: t => scanFuel fuel (ch == '\n') t := rfl

theorem scanFuel_succ_false (fuel : Nat) (s : Str) :
    scanFuel (fuel + 1) false s =
      match s with
      | [] => []
      | ch :: t => scanFuel fuel (ch == '\n') t := rfl

theorem scanFuel_congr : ∀ (f g : Nat) (atLineStart : Bool) (s : Str),
    s.length < f → s.length < g →
    scanFuel f atLineStart s = scanFuel g atLineStart s := by
  intro f
  induction f with
  | zero => intro g atLS s hf _; omega
  | succ f' ihf =>
    intro g atLS s hf hg
    cases g with
    | zero => omega
    | succ g' =>
      cases atLS with
      | false =>
        rw [scanFuel_succ_false, scanFuel_succ_false]
        cases s with
        | nil => rfl
        | cons ch t =>
          exact ihf g' (ch == '\n') t (by simp at hf; omega) (by simp at hg; omega)
      | true =>
        rw [scanFuel_succ_true, scanFuel_succ_true]
        cases hm : matchAt s with
        | some pcr =>
          obtain ⟨p, c, rest⟩ := pcr
          have hl := matchAt_length hm
          show (p, c) :: scanFuel f' false rest = (p, c) :: scanFuel g' false rest
          rw [ihf g' false rest (by omega) (by omega)]
        | none =>
          cases s with
          | nil => rfl
          | cons ch t =>
            show scanFuel f' (ch == '\n') t = scanFuel g' (ch == '\n') t
            exact ihf g' (ch == '\n') t (by simp at hf; omega) (by simp at hg; omega)

/-- `re.finditer` over the bundle: attempt a match at every line start
(`atLineStart` records whether the previous character was a newline, or
that we are at the start of the text), emit each match's `(path, content)`
groups in document order, and resume scanning right after each match. -/
def scanEntries (atLineStart : Bool) (s : Str) : List (Str × Str) :=
  scanFuel (s.length + 1) atLineStart s

/-- The one-step unfolding of the scan at a line start: report the match
at this position if there is one, else move one character forward. -/
theorem scanEntries_true_eq (s : Str) :
    scanEntries true s =
      match matchAt s, s with
      | some (p, c, rest), _ => (p, c) :: scanEntries false rest
      | none, [] => []
      | none, ch :: t => scanEntries (ch == '\n') t := by
  cases hm : matchAt s with
  | some pcr =>
    obtain ⟨p, c, rest⟩ := pcr
    have hl := matchAt_length hm
    show scanEntries true s = (p, c) :: scanEntries false rest
    unfold scanEntries
    rw [scanFuel_succ_true, hm]
    show (p, c) :: scanFuel s.length false rest = _
    rw [scanFuel_congr s.length (rest.length + 1) false rest (by omega) (by omega)]
  | none =>
    cases s with
    | nil => rfl
    | cons ch t =>
      show scanEntries true (ch :: t) = scanEntries (ch == '\n') t
      unfold scanEntries
      rw [scanFuel_succ_true, hm]
      show scanFuel (ch :: t).length (ch == '\n') t = _
      exact scanFuel_congr (ch :: t).length (t.length + 1) (ch == '\n') t
        (by simp) (by omega)

/-- The one-step unfolding of the scan away from a line start. -/
theorem scanEntries_false_eq (s : Str) :
    scanEntries false s =
      match s with
      | [] => []
      | ch :: t => scanEntries (ch == '\n') t := by
  cases s with
  | nil => rfl
  | cons ch t =>
    show scanEntries false (ch :: t) = scanEntries (ch == '\n') t
    unfold scanEntries
    rw [scanFuel_succ_false]
    show scanFuel (ch :: t).length (ch == '\n') t = _
    exact scanFuel_congr (ch :: t).length (t.length + 1) (ch == '\n') t (by simp) (by omega)

/-- The per-input-file state `slice_files` accumulates: the `(path,
content)` writes performed (in order), the unsafe relative paths that
drew a security warning, and `errors_encountered`. -/
structure SliceResult where
  writes : List (Str × Str)
  warnings : List Str
  errors : Nat
  deriving DecidableEq

/-- Processing of one captured entry: normalise the stripped path, reject
absolute paths and paths with a `'..'` segment (warning + error count,
no write), otherwise write the content to `os.path.join(output_folder,
rel_path)`. -/
def processEntry (outputFolder : Str) (st : SliceResult) (e : Str × Str) : SliceResult :=
  if isabs (normpath (pyStrip e.1)) || (splitSlash (normpath (pyStrip e.1))).contains ['.', '.'] then
    ⟨st.writes, st.warnings ++ [normpath (pyStrip e.1)], st.errors + 1⟩
  else
    ⟨st.writes ++ [(posixJoin outputFolder (normpath (pyStrip e.1)), e.2)], st.warnings, st.errors⟩

/-- Process the captured entries in document order. -/
def processEntriesFrom (outputFolder : Str) (st : SliceResult)
    (es : List (Str × Str)) : SliceResult :=
  es.foldl (processEntry outputFolder) st

/-- `slice_files` on one readable input bundle: skip the preamble if
present, scan for entries, process each. -/
def sliceOneFile (outputFolder : Str) (content : Str) : SliceResult :=
  processEntriesFrom outputFolder ⟨[], [], 0⟩ (scanEntries true (skipPrompt content))

/-! ## Shared helper lemmas -/

theorem drop_append_le {u : Str} (v : Str) {n : Nat} (h : n ≤ u.length) :
    (u ++ v).drop n = u.drop n ++ v := by
  induction u generalizing n with
  | nil =>
    simp at h
    simp [h]
  | cons c t ih =>
    cases n with
    | zero => simp
    | succ m =>
      simp only [List.cons_append, List.drop_succ_cons]
      exact ih (by simpa using h)

theorem dropWhile_append_of_ne_nil {p : Char → Bool} {u : Str} (v : Str)
    (h : u.dropWhile p ≠ []) :
    (u ++ v).dropWhile p = u.dropWhile p ++ v := by
  induction u with
  | nil => simp [List.dropWhile] at h
  | cons c t ih =>
    simp only [List.cons_append, List.dropWhile]
    simp only [List.dropWhile] at h
    cases hc : p c
    · simp
    · rw [hc] at h
      simp only [] at h ⊢
      exact ih h

theorem isPrefixOf_append_of_le {pat u : Str} (v : Str) (h : pat.length ≤ u.length) :
    pat.isPrefixOf (u ++ v) = pat.isPrefixOf u := by
  induction pat generalizing u with
  | nil => simp [List.isPrefixOf]
  | cons a as ih =>
    cases u with
    | nil => simp at h
    | cons b bs =>
      simp only [List.cons_append, List.isPrefixOf, List.append_eq]
      rw [ih (by simpa using h)]

theorem findSub_append {pat u : Str} (v : Str) {q : Nat} (hpat : pat ≠ [])
    (h : findSub pat u = some q) (hq : q + pat.length ≤ u.length) :
    findSub pat (u ++ v) = some q := by
  induction u generalizing q with
  | nil =>
    rw [findSub, if_neg hpat] at h
    exact Option.noConfusion h
  | cons c t ih =>
    rw [findSub] at h
    have hcv : (c :: t) ++ v = c :: (t ++ v) := rfl
    by_cases hp : pat.isPrefixOf (c :: t) = true
    · rw [if_pos hp] at h
      injection h with h
      subst h
      have hpv : pat.isPrefixOf (c :: (t ++ v)) = true := by
        rw [← hcv, isPrefixOf_append_of_le v (by simpa using hq)]
        exact hp
      rw [hcv, findSub, if_pos hpv]
    · rw [if_neg hp] at h
      have hple : pat.length ≤ (c :: t).length := by
        simp at hq ⊢
        omega
      have hpv : ¬ pat.isPrefixOf (c :: (t ++ v)) = true := by
        rw [← hcv, isPrefixOf_append_of_le v hple]
        exact hp
      rw [hcv, findSub, if_neg hpv]
      cases hft : findSub pat t with
      | none => rw [hft] at h; exact Option.noConfusion h
      | some q' =>
        rw [hft] at h
        simp at h
        have hq' : q' + pat.length ≤ t.length := by
          simp at hq
          omega
        rw [ih hft hq']
        simp [h]

theorem any_congr_of_mem_iff {l1 l2 : List Str} (h : ∀ x, x ∈ l1 ↔ x ∈ l2)
    (f : Str → Bool) : l1.any f = l2.any f := by
  rw [Bool.eq_iff_iff]
  simp only [List.any_eq_true]
  constructor
  · rintro ⟨x, hx, hf⟩
    exact ⟨x, (h x).1 hx, hf⟩
  · rintro ⟨x, hx, hf⟩
    exact ⟨x, (h x).2 hx, hf⟩

/-! ## C3: exclusion precedes inclusion -/

/-- C3: a path matching any exclusion pattern is dropped by the
traversal — for a directory the whole subtree is pruned without
descending — regardless of the inclusion patterns (which are tested only
after the exclusion test), and its path is only recorded under
`excluded_items`. -/
theorem exclusion_precedes_inclusion (cwd : Str) (excl incl : List Str)
    (baseFolder : Str) (node : FSNode) (currentPath : Str)
    (h : should_exclude currentPath excl (nodeIsDir node) = true) :
    traverseNode cwd excl incl baseFolder node currentPath = ⟨[], [], [], [currentPath]⟩ := by
  cases node with
  | file c =>
    have h' : should_exclude currentPath excl (nodeIsDir (FSNode.file c)) = true := h
    unfold traverseNode
    rw [if_pos h']
  | dir ch =>
    have h' : should_exclude currentPath excl (nodeIsDir (FSNode.dir ch)) = true := h
    unfold traverseNode
    rw [if_pos h']

/-- Witness for C3 at a concrete input: a directory matching both an
inclusion and an exclusion pattern is pruned. -/
theorem exclusion_precedes_inclusion_witness :
    should_exclude "a/.git".toList [".git".toList] (nodeIsDir (FSNode.dir .nil)) = true ∧
    traverseNode "/w".toList [".git".toList] [".git".toList] "a".toList
      (FSNode.dir .nil) "a/.git".toList = ⟨[], [], [], ["a/.git".toList]⟩ :=
  ⟨by decide, exclusion_precedes_inclusion _ _ _ _ _ _ (by decide)⟩

/-! ## C4: the content classifier's decision policy -/

/-- C4: `is_text_file` classifies as binary exactly when: the lowered
extension is in the fixed known-binary set (content is then never read),
or the file is unreadable, or the read prefix is nonempty and either
contains a null byte or has more than 10% control characters (excluding
tab, newline, carriage return); an empty prefix is text.  The 10% test
is the script's float comparison, exact at the reachable chunk sizes. -/
theorem is_text_file_policy (filePath : Str) (readChunk : Option (List Nat)) :
    is_text_file filePath readChunk = false ↔
      (lowerStr (extOf filePath) ∈ binary_extensions ∨
       readChunk = none ∨
       ∃ chunk, readChunk = some chunk ∧ chunk ≠ [] ∧
         (0 ∈ chunk ∨ 10 * controlCount chunk > chunk.length)) := by
  unfold is_text_file
  by_cases hb : binary_extensions.contains (lowerStr (extOf filePath)) = true
  · rw [if_pos hb]
    exact iff_of_true rfl (Or.inl (List.elem_iff.1 hb))
  · rw [if_neg hb]
    have hb' : lowerStr (extOf filePath) ∉ binary_extensions := fun hm =>
      hb (List.elem_iff.2 hm)
    cases readChunk with
    | none => exact iff_of_true rfl (Or.inr (Or.inl rfl))
    | some chunk =>
      show (if chunk = [] then true
            else if chunk.contains 0 then false
            else if 10 * controlCount chunk > chunk.length then false
            else true) = false ↔ _
      by_cases he : chunk = []
      · rw [if_pos he]
        constructor
        · intro ht
          exact absurd ht (by simp)
        · rintro (hm | hn | ⟨ch2, heq, hne, _⟩)
          · exact absurd hm hb'
          · exact Option.noConfusion hn
          · injection heq with heq
            exact (hne (heq.symm.trans he)).elim
      · rw [if_neg he]
        by_cases hz : chunk.contains 0 = true
        · rw [if_pos hz]
          exact iff_of_true rfl (Or.inr (Or.inr ⟨chunk, rfl, he, Or.inl (List.elem_iff.1 hz)⟩))
        · rw [if_neg hz]
          have hz' : 0 ∉ chunk := fun hm => hz (List.elem_iff.2 hm)
          by_cases hc : 10 * controlCount chunk > chunk.length
          · rw [if_pos hc]
            exact iff_of_true rfl (Or.inr (Or.inr ⟨chunk, rfl, he, Or.inr hc⟩))
          · rw [if_neg hc]
            constructor
            · intro ht
              exact absurd ht (by simp)
            · rintro (hm | hn | ⟨ch2, heq, hne, hbad⟩)
              · exact absurd hm hb'
              · exact Option.noConfusion hn
              · injection heq with heq
                subst heq
                rcases hbad with h0 | hgt
                · exact absurd h0 hz'
                · exact absurd hgt hc

/-! ## C6: the encoded entry's fenced block is verbatim -/

/-- C6: an encoded entry is the header line, a blank line, the
fence-opening line `` ```<language> `` with its newline, the file's text
content verbatim (no characters added or removed), the closing fence on
its own line, and a blank separator line. -/
theorem entry_format_verbatim (cwd filePath baseFolder content : Str) :
    write_file_to_output cwd filePath baseFolder content =
      ("### **`".toList ++ encodedRelPath cwd filePath baseFolder ++ "`**".toList)
        ++ "\n\n".toList
        ++ ("```".toList ++ langOf filePath ++ ['\n'])
        ++ content
        ++ "\n```".toList
        ++ "\n\n".toList := by
  unfold write_file_to_output
  simp

/-! ## C10: the decoder normalises the captured path before checking and writing -/

/-- C10: each captured path is stripped of surrounding whitespace and
normalised before the safety check and before the write; in particular
two captured paths with the same stripped-normalised form are processed
identically, and a safe entry writes to
`join(output_folder, normpath(strip(path)))`. -/
theorem decode_path_normalization (outputFolder : Str) (st : SliceResult)
    (c p1 p2 : Str) (h : normpath (pyStrip p1) = normpath (pyStrip p2)) :
    processEntry outputFolder st (p1, c) = processEntry outputFolder st (p2, c) ∧
    ((isabs (normpath (pyStrip p1)) ||
        (splitSlash (normpath (pyStrip p1))).contains ['.', '.']) = false →
      processEntry outputFolder st (p1, c) =
        ⟨st.writes ++ [(posixJoin outputFolder (normpath (pyStrip p1)), c)],
         st.warnings, st.errors⟩) := by
  constructor
  · simp only [processEntry]
    rw [h]
  · intro hsafe
    simp only [processEntry]
    rw [hsafe]
    simp

/-- Witness for C10: `' a/b.txt '` and `'./a//b.txt'` are decoded to the
same output path. -/
theorem decode_path_normalization_witness :
    normpath (pyStrip " a/b.txt ".toList) = normpath (pyStrip "./a//b.txt".toList) ∧
    processEntry "o".toList ⟨[], [], 0⟩ (" a/b.txt ".toList, "x".toList) =
      processEntry "o".toList ⟨[], [], 0⟩ ("./a//b.txt".toList, "x".toList) :=
  ⟨by decide,
   (decode_path_normalization "o".toList ⟨[], [], 0⟩ "x".toList _ _ (by decide)).1⟩

/-! ## C1: path safety on decode -/

/-- Fold invariant: every write the entry processor records targets
`join(output_folder, rel)` for a relative path `rel` that is not absolute
and has no `'..'` segment. -/
theorem processEntriesFrom_writes_safe (outputFolder : Str) :
    ∀ (es : List (Str × Str)) (st : SliceResult),
      (∀ w ∈ st.writes, ∃ rel, w.1 = posixJoin outputFolder rel ∧ isabs rel = false ∧
        ['.', '.'] ∉ splitSlash rel) →
      ∀ w ∈ (processEntriesFrom outputFolder st es).writes,
        ∃ rel, w.1 = posixJoin outputFolder rel ∧ isabs rel = false ∧
          ['.', '.'] ∉ splitSlash rel := by
  intro es
  induction es with
  | nil => exact fun st hst w hw => hst w hw
  | cons e rest ih =>
    intro st hst w hw
    rw [show processEntriesFrom outputFolder st (e :: rest) =
      processEntriesFrom outputFolder (processEntry outputFolder st e) rest from rfl] at hw
    refine ih _ ?_ w hw
    intro w' hw'
    simp only [processEntry] at hw'
    split at hw'
    · exact hst w' hw'
    · rename_i hcond
      simp only [Bool.or_eq_true, not_or] at hcond
      have hw2 : w' ∈ st.writes ++
          [(posixJoin outputFolder (normpath (pyStrip e.1)), e.2)] := hw'
      rw [List.mem_append] at hw2
      rcases hw2 with hmem | hnew
      · exact hst w' hmem
      · simp only [List.mem_singleton] at hnew
        subst hnew
        refine ⟨normpath (pyStrip e.1), rfl, ?_, ?_⟩
        · cases hia : isabs (normpath (pyStrip e.1))
          · rfl
          · exact absurd hia hcond.1
        · intro hmem2
          exact hcond.2 (List.elem_iff.2 hmem2)

/-- C1: a captured entry whose stripped, normalised path is absolute or
contains a `'..'` segment produces no write: only a security warning and
an incremented error count, after which decoding continues with the
remaining entries; consequently every file the decoder writes goes to
`join(output_folder, rel)` for a relative, `'..'`-free `rel`, i.e. lies
under the output root. -/
theorem decode_path_safety (outputFolder bundle : Str) :
    (∀ w ∈ (sliceOneFile outputFolder bundle).writes,
      ∃ rel, w.1 = posixJoin outputFolder rel ∧ isabs rel = false ∧
        ['.', '.'] ∉ splitSlash rel) ∧
    (∀ (st : SliceResult) (p c : Str) (rest : List (Str × Str)),
      (isabs (normpath (pyStrip p)) ||
        (splitSlash (normpath (pyStrip p))).contains ['.', '.']) = true →
      processEntriesFrom outputFolder st ((p, c) :: rest) =
        processEntriesFrom outputFolder
          ⟨st.writes, st.warnings ++ [normpath (pyStrip p)], st.errors + 1⟩ rest) := by
  constructor
  · intro w hw
    exact processEntriesFrom_writes_safe outputFolder _ _
      (fun w' hw' => absurd hw' (List.not_mem_nil w')) w hw
  · intro st p c rest huns
    show processEntriesFrom outputFolder (processEntry outputFolder st (p, c)) rest = _
    congr 1
    simp only [processEntry]
    rw [if_pos huns]

/-- Witness for C1: the entry `/etc/passwd` is rejected with a warning
and an error, and produces no write. -/
theorem decode_path_safety_witness :
    (isabs (normpath (pyStrip "/etc/passwd".toList)) ||
      (splitSlash (normpath (pyStrip "/etc/passwd".toList))).contains ['.', '.']) = true ∧
    processEntriesFrom "o".toList ⟨[], [], 0⟩ [("/etc/passwd".toList, "x".toList)] =
      ⟨[], ["/etc/passwd".toList], 1⟩ := by
  refine ⟨by decide, ?_⟩
  rw [(decode_path_safety "o".toList []).2 ⟨[], [], 0⟩ "/etc/passwd".toList "x".toList []
    (by decide)]
  decide

/-! ## C8: the fixed default exclusions prune directories -/

theorem should_exclude_congr {l1 l2 : List Str} (h : ∀ x, x ∈ l1 ↔ x ∈ l2)
    (p : Str) (d : Bool) : should_exclude p l1 d = should_exclude p l2 d :=
  any_congr_of_mem_iff h _

/-- C8: whenever the effective exclusion list contains the fixed defaults
(as it does on every run, in particular with an empty user exclusion
list), a directory whose base name is `.git`, `node_modules`,
`__pycache__` or `venv` is pruned outright: nothing under it is entered,
written or recorded beyond the exclusion itself. -/
theorem default_exclusions_prune (cwd : Str) (excl incl : List Str) (baseFolder : Str)
    (ch : FSChildren) (currentPath : Str)
    (hdef : ∀ p ∈ default_venv_patterns, p ∈ excl)
    (hname : basename currentPath = ".git".toList ∨
      basename currentPath = "node_modules".toList ∨
      basename currentPath = "__pycache__".toList ∨
      basename currentPath = "venv".toList) :
    traverseNode cwd excl incl baseFolder (.dir ch) currentPath =
      ⟨[], [], [], [currentPath]⟩ := by
  apply exclusion_precedes_inclusion
  unfold should_exclude
  rw [List.any_eq_true]
  rcases hname with h | h | h | h
  · refine ⟨".git".toList, hdef _ (by decide), ?_⟩
    have h2 : fnmatchL (basename currentPath) ".git".toList = true := by
      rw [h]; decide
    simp
    exact Or.inr h2
  · refine ⟨"node_modules".toList, hdef _ (by decide), ?_⟩
    have h2 : fnmatchL (basename currentPath) "node_modules".toList = true := by
      rw [h]; decide
    simp
    exact Or.inr h2
  · refine ⟨"__pycache__".toList, hdef _ (by decide), ?_⟩
    have h2 : fnmatchL (basename currentPath) "__pycache__".toList = true := by
      rw [h]; decide
    simp
    exact Or.inr h2
  · refine ⟨"venv".toList, hdef _ (by decide), ?_⟩
    have h2 : fnmatchL (basename currentPath) "venv".toList = true := by
      rw [h]; decide
    simp
    exact Or.inr h2

/-- Witness for C8: a `.git` directory with a file inside contributes
nothing to the bundle. -/
theorem default_exclusions_prune_witness :
    traverseNode "/w".toList default_venv_patterns [] "a".toList
      (FSNode.dir (.cons "config".toList (FSNode.file "x".toList) .nil))
      "a/.git".toList = ⟨[], [], [], ["a/.git".toList]⟩ :=
  default_exclusions_prune _ _ _ _ _ _ (fun _ hp => hp) (Or.inl (by decide))

/-! ## C7: output path also an input path -/

/-- C7 counterexample: with `--force` set, an existing output file that
is also an input path does **not** abort: the pre-flight passes and the
run proceeds to open and write the output. -/
theorem output_overlap_counterexample :
    concatPreflight "o".toList ["o".toList] true (fun _ => true) = none ∧
    concatRun "/w".toList "o".toList [⟨"o".toList, FSNode.file "x".toList⟩] true
      default_venv_patterns [] false (fun _ => true) AI_INSTRUCTION_PROMPT =
      .ok (concatenateOutput "/w".toList default_venv_patterns [] false
        [⟨"o".toList, FSNode.file "x".toList⟩] AI_INSTRUCTION_PROMPT) :=
  ⟨rfl, rfl⟩

/-- C7 amended: when the output file exists and `force` is **not** set,
and the normalised output path equals one of the normalised input paths,
the run aborts with the self-concatenation configuration error before
anything is written. -/
theorem output_overlap_amended (cwd outputName : Str) (inputs : List InputItem)
    (effExcl incl : List Str) (addPrompt : Bool) (pathExists : Str → Bool)
    (promptText : Str)
    (hex : pathExists (normpath outputName) = true)
    (hmem : normpath outputName ∈ (inputs.map InputItem.path).map normpath) :
    concatRun cwd outputName inputs false effExcl incl addPrompt pathExists promptText =
      .error "output file is also an input path".toList := by
  have hc : ((inputs.map InputItem.path).map normpath).contains (normpath outputName) = true :=
    List.elem_iff.2 hmem
  unfold concatRun concatPreflight
  rw [hex, hc]
  simp

/-- Witness for C7's amended statement at a concrete configuration. -/
theorem output_overlap_amended_witness :
    concatRun "/w".toList "o".toList [⟨"o".toList, FSNode.file "x".toList⟩] false
      default_venv_patterns [] false (fun _ => true) AI_INSTRUCTION_PROMPT =
      .error "output file is also an input path".toList :=
  output_overlap_amended "/w".toList "o".toList _ _ _ false _ AI_INSTRUCTION_PROMPT
    rfl (by decide)

/-! ## C5: encoding is deterministic in the internal exclusion order -/

mutual
/-- The traversal of a node depends on the effective exclusion list only
through membership: any two orders (or duplications) of the same pattern
set give identical results. -/
theorem traverseNode_excl_congr (cwd : Str) {l1 l2 : List Str} (incl : List Str)
    (b : Str) (h : ∀ x, x ∈ l1 ↔ x ∈ l2) :
    ∀ (n : FSNode) (cp : Str),
      traverseNode cwd l1 incl b n cp = traverseNode cwd l2 incl b n cp
  | .file c, cp => by
    unfold traverseNode
    rw [should_exclude_congr h]
  | .dir ch, cp => by
    unfold traverseNode
    dsimp only
    rw [should_exclude_congr h, traverseChildren_excl_congr cwd incl b h ch cp]
/-- Child-list version of `traverseNode_excl_congr`. -/
theorem traverseChildren_excl_congr (cwd : Str) {l1 l2 : List Str} (incl : List Str)
    (b : Str) (h : ∀ x, x ∈ l1 ↔ x ∈ l2) :
    ∀ (ch : FSChildren) (cp : Str),
      traverseChildren cwd l1 incl b ch cp = traverseChildren cwd l2 incl b ch cp
  | .nil, _ => rfl
  | .cons name node rest, cp => by
    unfold traverseChildren
    rw [traverseNode_excl_congr cwd incl b h node (posixJoin cp name),
      traverseChildren_excl_congr cwd incl b h rest cp]
end

/-- C5: two encode runs over the same filesystem state and configuration
produce byte-identical bundle text (and identical traversal results, so
the same files in the same order), even when the internally built
effective exclusion list enumerates the merged pattern set in a
different order. -/
theorem encode_deterministic (cwd : Str) (l1 l2 incl : List Str) (addPrompt : Bool)
    (inputs : List InputItem) (promptText : Str)
    (h : ∀ x, x ∈ l1 ↔ x ∈ l2) :
    concatenateOutput cwd l1 incl addPrompt inputs promptText =
      concatenateOutput cwd l2 incl addPrompt inputs promptText ∧
    concatenateBody cwd l1 incl inputs = concatenateBody cwd l2 incl inputs := by
  have hbody : concatenateBody cwd l1 incl inputs = concatenateBody cwd l2 incl inputs := by
    unfold concatenateBody
    congr 1
    apply List.map_congr_left
    intro it _
    exact traverseNode_excl_congr cwd incl
      (baseFolderFor (normpath it.path) it.node) h it.node (normpath it.path)
  exact ⟨by unfold concatenateOutput; rw [hbody], hbody⟩

/-! ## C9: the leading preamble is skipped before entry scanning -/

set_option maxRecDepth 100000 in
/-- The preamble-skipping prologue on a bundle that begins with the full
instructional preamble: exactly the preamble (up to its terminating blank
line) is removed, leaving the blank line and the remainder. -/
theorem preamble_skip (rest : Str) :
    skipPrompt (AI_INSTRUCTION_PROMPT ++ rest) = '\n' :: '\n' :: rest := by
  have hdw : (AI_INSTRUCTION_PROMPT ++ rest).dropWhile isPySpace =
      AI_INSTRUCTION_PROMPT.dropWhile isPySpace ++ rest :=
    dropWhile_append_of_ne_nil rest (by decide)
  have hpre : prompt_marker.isPrefixOf
      ((AI_INSTRUCTION_PROMPT ++ rest).dropWhile isPySpace) = true := by
    rw [hdw, isPrefixOf_append_of_le rest (by decide)]
    decide
  have hf1 : findSub prompt_marker (AI_INSTRUCTION_PROMPT ++ rest) = some 1 :=
    findSub_append rest (by decide) (by decide) (by decide)
  have hdrop1 : (AI_INSTRUCTION_PROMPT ++ rest).drop 1 =
      AI_INSTRUCTION_PROMPT.drop 1 ++ rest :=
    drop_append_le rest (by decide)
  have hf2 : findSub "\n\n".toList ((AI_INSTRUCTION_PROMPT ++ rest).drop 1) = some 698 := by
    rw [hdrop1]
    exact findSub_append rest (by decide) (by decide) (by decide)
  have hdrop701 : (AI_INSTRUCTION_PROMPT ++ rest).drop 701 =
      AI_INSTRUCTION_PROMPT.drop 701 ++ rest :=
    drop_append_le rest (by decide)
  unfold skipPrompt
  rw [if_pos hpre, hf1]
  simp only [Option.getD_some]
  rw [hf2]
  simp only [Option.map_some']
  show (if 698 + 1 + 2 > 1 then (AI_INSTRUCTION_PROMPT ++ rest).drop (698 + 1 + 2)
    else AI_INSTRUCTION_PROMPT ++ rest) = '\n' :: '\n' :: rest
  rw [if_pos (by omega)]
  rw [show 698 + 1 + 2 = 701 from rfl, hdrop701]
  rw [show AI_INSTRUCTION_PROMPT.drop 701 = ['\n', '\n'] from by decide]
  rfl

/-- C9 amended: decoding a bundle that begins with the instructional
preamble behaves exactly like decoding the text after the preamble (with
its terminating blank line) — the preamble is located and removed before
entry scanning, so the preamble itself produces no entries; preamble text
can still appear inside an output file when the entries after the
preamble themselves carry it (see the counterexample). -/
theorem preamble_skip_amended (outputFolder rest : Str) :
    sliceOneFile outputFolder (AI_INSTRUCTION_PROMPT ++ rest) =
      processEntriesFrom outputFolder ⟨[], [], 0⟩
        (scanEntries true ('\n' :: '\n' :: rest)) := by
  unfold sliceOneFile
  rw [preamble_skip]

set_option maxRecDepth 1000000 in
/-- C9 counterexample: a bundle that begins with the instructional
preamble and whose (well-formed) entry content is the preamble's marker
line produces a file whose content is preamble text. -/
theorem preamble_counterexample :
    prompt_marker.isPrefixOf
      ((AI_INSTRUCTION_PROMPT ++
        "### **`f.txt`**\n\n```text\n> **AI Instruction:**\n```\n".toList).dropWhile
          isPySpace) = true ∧
    (sliceOneFile "o".toList (AI_INSTRUCTION_PROMPT ++
        "### **`f.txt`**\n\n```text\n> **AI Instruction:**\n```\n".toList)).writes =
      [("o/f.txt".toList, prompt_marker)] := by
  constructor
  · decide
  · decide

/-! ## C2: round trip

The remainder of the file establishes that encode-then-decode reproduces
every file exactly — under the side conditions the counterexamples force:
file contents must not contain the closing-fence substring `"\n```"`
(`roundtrip_counterexample`: the lazy regex capture truncates such
contents), names must be clean path components (nonempty, not `.`/`..`,
no `/`, backquote or whitespace) that the effective exclusion list does
not match, and every file must classify as text.  Contents are taken
ASCII so the script's utf-8 read is the identity on bytes. -/

/-- A clean path component: usable in a header, stable under
`strip`/`normpath`, and with no path or backquote metacharacters. -/
def cleanNameB (n : Str) : Bool :=
  decide (n ≠ []) && decide (n ≠ ['.']) && decide (n ≠ ['.', '.']) &&
    n.all fun c => decide (c ≠ '/') && decide (c ≠ '`') && !isPySpace c

/-- Directory entries as an association list. -/
def childrenList : FSChildren → List (Str × FSNode)
  | .nil => []
  | .cons name node rest => (name, node) :: childrenList rest

/-- The text of one encoded entry, as `write_file_to_output` lays it out. -/
def entryText (relPath lang content : Str) : Str :=
  "### **`".toList ++ relPath ++ "`**\n\n```".toList ++ lang
    ++ '\n' :: content ++ "\n```\n\n".toList

mutual
/-- The files below a node in the traversal's (sorted) emission order:
for each file its path components below the node, with its content. -/
def filesOfNode : FSNode → List (List Str × Str)
  | .file content => [([], content)]
  | .dir ch =>
    ((sortPairsBy (filesOfChildren ch)).map fun p =>
      p.2.map fun e => (p.1 :: e.1, e.2)).flatten
/-- The per-child file lists, in directory order. -/
def filesOfChildren : FSChildren → List (Str × List (List Str × Str))
  | .nil => []
  | .cons name node rest => (name, filesOfNode node) :: filesOfChildren rest
end

mutual
/-- The round-trip side conditions on a subtree rooted at `currentPath`:
nothing is excluded, every file classifies as text, has ASCII content
free of the closing-fence substring, and all names are clean. -/
def nodeOKb (excl : List Str) : FSNode → Str → Bool
  | .file content, cp =>
    !should_exclude cp excl false &&
      is_text_file cp (some (fileChunk content)) &&
      (findFence content).isNone &&
      content.all (fun c => decide (c.toNat < 128))
  | .dir ch, cp =>
    !should_exclude cp excl true && childrenOKb excl ch cp
/-- `nodeOKb` over the children of a directory. -/
def childrenOKb (excl : List Str) : FSChildren → Str → Bool
  | .nil, _ => true
  | .cons name node rest, cp =>
    cleanNameB name && nodeOKb excl node (posixJoin cp name) &&
      childrenOKb excl rest cp
end

theorem mem_insertByName {α : Type} (x y : Str × α) (l : List (Str × α)) :
    x ∈ insertByName y l ↔ x = y ∨ x ∈ l := by
  induction l with
  | nil => simp [insertByName]
  | cons z zs ih =>
    unfold insertByName
    split
    · simp [ih]
      tauto
    · simp

theorem mem_sortPairsBy {α : Type} (x : Str × α) (l : List (Str × α)) :
    x ∈ sortPairsBy l ↔ x ∈ l := by
  induction l with
  | nil => simp [sortPairsBy]
  | cons y ys ih =>
    unfold sortPairsBy
    rw [mem_insertByName, ih]
    simp

theorem insertByName_map {α β : Type} (f : Str → α → β) (x : Str × α) :
    ∀ (l : List (Str × α)),
      insertByName (x.1, f x.1 x.2) (l.map fun p => (p.1, f p.1 p.2)) =
        (insertByName x l).map fun p => (p.1, f p.1 p.2)
  | [] => rfl
  | y :: ys => by
    unfold insertByName
    simp only [List.map_cons]
    split
    · simp only [List.map_cons]
      rw [insertByName_map f x ys]
    · simp

theorem sortPairsBy_map {α β : Type} (f : Str → α → β) :
    ∀ (l : List (Str × α)),
      sortPairsBy (l.map fun p => (p.1, f p.1 p.2)) =
        (sortPairsBy l).map fun p => (p.1, f p.1 p.2)
  | [] => rfl
  | x :: xs => by
    unfold sortPairsBy
    simp only [List.map_cons]
    rw [sortPairsBy_map f xs, insertByName_map f x]

theorem concatTR_out : ∀ (l : List TravResult),
    (concatTR l).out = (l.map TravResult.out).flatten
  | [] => rfl
  | x :: xs => by
    unfold concatTR at *
    simp only [List.foldr_cons, List.map_cons, List.flatten_cons]
    rw [← concatTR_out xs]
    rfl

theorem traverseChildren_eq (cwd : Str) (excl incl : List Str) (b : Str) :
    ∀ (ch : FSChildren) (cp : Str),
      traverseChildren cwd excl incl b ch cp =
        (childrenList ch).map fun p =>
          (p.1, traverseNode cwd excl incl b p.2 (posixJoin cp p.1))
  | .nil, _ => rfl
  | .cons name node rest, cp => by
    unfold traverseChildren childrenList
    simp only [List.map_cons]
    rw [traverseChildren_eq cwd excl incl b rest cp]

theorem filesOfChildren_eq : ∀ (ch : FSChildren),
    filesOfChildren ch = (childrenList ch).map fun p => (p.1, filesOfNode p.2)
  | .nil => rfl
  | .cons name node rest => by
    unfold filesOfChildren childrenList
    simp only [List.map_cons]
    rw [filesOfChildren_eq rest]

theorem childrenOKb_mem {excl : List Str} : ∀ (ch : FSChildren) (cp : Str),
    childrenOKb excl ch cp = true →
    ∀ p ∈ childrenList ch,
      cleanNameB p.1 = true ∧ nodeOKb excl p.2 (posixJoin cp p.1) = true
  | .nil, cp, _, p, hp => by simp [childrenList] at hp
  | .cons name node rest, cp, h, p, hp => by
    unfold childrenOKb at h
    simp only [Bool.and_eq_true] at h
    unfold childrenList at hp
    rcases List.mem_cons.1 hp with heq | hmem
    · subst heq
      exact ⟨h.1.1, h.1.2⟩
    · exact childrenOKb_mem rest cp h.2 p hmem

/-! Path lemmas: on clean components, the `posixpath` primitives act as
plain component concatenation. -/

theorem cleanNameB_spec {n : Str} (h : cleanNameB n = true) :
    n ≠ [] ∧ n ≠ ['.'] ∧ n ≠ ['.', '.'] ∧
      ∀ c ∈ n, c ≠ '/' ∧ c ≠ '`' ∧ isPySpace c = false := by
  unfold cleanNameB at h
  simp only [Bool.and_eq_true, decide_eq_true_eq, List.all_eq_true] at h
  refine ⟨h.1.1.1, h.1.1.2, h.1.2, fun c hc => ?_⟩
  have h2 := h.2 c hc
  simp only [Bool.and_eq_true, decide_eq_true_eq, Bool.not_eq_true'] at h2
  exact ⟨h2.1.1, h2.1.2, h2.2⟩

theorem splitSlash_no_slash : ∀ (x : Str), (∀ ch ∈ x, ch ≠ '/') →
    splitSlash x = [x]
  | [], _ => rfl
  | c :: t, h => by
    unfold splitSlash
    rw [splitSlash_no_slash t fun ch hch => h ch (by simp [hch])]
    show (if c = '/' then [[], t] else [c :: t]) = [c :: t]
    rw [if_neg (h c (by simp))]

theorem splitSlash_ne_nil : ∀ (s : Str), splitSlash s ≠ []
  | [] => by simp [splitSlash]
  | c :: t => by
    unfold splitSlash
    cases hs : splitSlash t with
    | nil => simp
    | cons a as =>
      show (if c = '/' then [] :: a :: as else (c :: a) :: as) ≠ []
      split
      · simp
      · simp

theorem splitSlash_append_slash : ∀ (x : Str) (s : Str), (∀ ch ∈ x, ch ≠ '/') →
    splitSlash (x ++ '/' :: s) = x :: splitSlash s
  | [], s, _ => by
    show splitSlash ('/' :: s) = [] :: splitSlash s
    cases hs : splitSlash s with
    | nil => exact absurd hs (splitSlash_ne_nil s)
    | cons a as =>
      unfold splitSlash
      rw [hs]
      show (if ('/' : Char) = '/' then [] :: a :: as else ('/' :: a) :: as) = [] :: a :: as
      rw [if_pos rfl]
  | c :: t, s, h => by
    show splitSlash (c :: (t ++ '/' :: s)) = (c :: t) :: splitSlash s
    cases hs : splitSlash s with
    | nil => exact absurd hs (splitSlash_ne_nil s)
    | cons a as =>
      unfold splitSlash
      rw [splitSlash_append_slash t s fun ch hch => h ch (by simp [hch]), hs]
      show (if c = '/' then [] :: t :: a :: as else (c :: t) :: a :: as) =
        (c :: t) :: a :: as
      rw [if_neg (h c (by simp))]

theorem splitSlash_joinSlash : ∀ (comps : List Str),
    (∀ c ∈ comps, ∀ ch ∈ c, ch ≠ '/') → comps ≠ [] →
    splitSlash (joinSlash comps) = comps
  | [], _, hne => absurd rfl hne
  | [x], h, _ => splitSlash_no_slash x (h x (by simp))
  | x :: y :: rest, h, _ => by
    show splitSlash (x ++ '/' :: joinSlash (y :: rest)) = x :: y :: rest
    rw [splitSlash_append_slash x _ (h x (by simp))]
    rw [splitSlash_joinSlash (y :: rest) (fun c hc => h c (by simp at hc ⊢; tauto))
      (by simp)]

theorem normSteps_clean (b : Bool) : ∀ (comps acc : List Str),
    (∀ c ∈ comps, c ≠ [] ∧ c ≠ ['.'] ∧ c ≠ ['.', '.']) →
    normSteps b acc comps = acc ++ comps
  | [], acc, _ => by simp [normSteps]
  | c :: rest, acc, h => by
    obtain ⟨h1, h2, h3⟩ := h c (by simp)
    unfold normSteps
    rw [if_neg (by tauto), if_pos (Or.inl h3)]
    rw [normSteps_clean b rest (acc ++ [c]) fun x hx => h x (by simp [hx])]
    simp

theorem joinSlash_ne_nil : ∀ (x : Str) (rest : List Str), x ≠ [] →
    joinSlash (x :: rest) ≠ []
  | x, [], hx => hx
  | x, y :: ys, _ => by
    show x ++ '/' :: joinSlash (y :: ys) ≠ []
    simp

theorem isabs_cons_ne {c : Char} (l : Str) (h : c ≠ '/') : isabs (c :: l) = false := by
  unfold isabs
  simp [h]

theorem isabs_joinSlash : ∀ (x : Str) (rest : List Str), x ≠ [] →
    (∀ ch ∈ x, ch ≠ '/') → isabs (joinSlash (x :: rest)) = false := by
  intro x rest hx h
  cases x with
  | nil => exact absurd rfl hx
  | cons c t =>
    cases rest with
    | nil => exact isabs_cons_ne t (h c (by simp))
    | cons y ys =>
      show isabs ((c :: t) ++ '/' :: joinSlash (y :: ys)) = false
      exact isabs_cons_ne _ (h c (by simp))

theorem joinSlash_append : ∀ (l1 l2 : List Str), l1 ≠ [] → l2 ≠ [] →
    joinSlash (l1 ++ l2) = joinSlash l1 ++ '/' :: joinSlash l2
  | [], _, h, _ => absurd rfl h
  | [x], l2, _, h2 => by
    cases l2 with
    | nil => exact absurd rfl h2
    | cons y ys => rfl
  | x :: y :: rest, l2, _, h2 => by
    show x ++ '/' :: joinSlash (y :: (rest ++ l2)) =
      (x ++ '/' :: joinSlash (y :: rest)) ++ '/' :: joinSlash l2
    rw [show y :: (rest ++ l2) = (y :: rest) ++ l2 from rfl]
    rw [joinSlash_append (y :: rest) l2 (by simp) h2]
    simp

theorem getLast?_append_ne_nil {α : Type} : ∀ (l1 l2 : List α), l2 ≠ [] →
    (l1 ++ l2).getLast? = l2.getLast?
  | [], _, _ => by simp
  | x :: xs, l2, h => by
    rw [List.cons_append]
    rw [List.getLast?_cons]
    rw [getLast?_append_ne_nil xs l2 h]
    cases l2 with
    | nil => exact absurd rfl h
    | cons y ys =>
      have : xs ++ y :: ys ≠ [] := by simp
      cases hx : xs ++ y :: ys with
      | nil => exact absurd hx this
      | cons a as => simp [List.getLast?_cons]

theorem getLast?_joinSlash_ne_slash : ∀ (comps : List Str), comps ≠ [] →
    (∀ c ∈ comps, cleanNameB c = true) →
    (joinSlash comps).getLast? ≠ some '/'
  | [], h, _ => absurd rfl h
  | [x], _, hc => by
    show x.getLast? ≠ some '/'
    intro hl
    have hx := cleanNameB_spec (hc x (by simp))
    exact (hx.2.2.2 '/' (List.mem_of_getLast?_eq_some hl)).1 rfl
  | x :: y :: rest, _, hc => by
    show (x ++ '/' :: joinSlash (y :: rest)).getLast? ≠ some '/'
    rw [getLast?_append_ne_nil x ('/' :: joinSlash (y :: rest)) (by simp)]
    have hy : joinSlash (y :: rest) ≠ [] :=
      joinSlash_ne_nil y rest (cleanNameB_spec (hc y (by simp))).1
    rw [show ('/' :: joinSlash (y :: rest)) = ['/'] ++ joinSlash (y :: rest) from rfl]
    rw [getLast?_append_ne_nil ['/'] _ hy]
    exact getLast?_joinSlash_ne_slash (y :: rest) (by simp) fun c hcm => hc c (by simp at hcm ⊢; tauto)

theorem cleanList_no_slash {comps : List Str} (h : ∀ c ∈ comps, cleanNameB c = true) :
    ∀ c ∈ comps, ∀ ch ∈ c, ch ≠ '/' :=
  fun c hc ch hch => ((cleanNameB_spec (h c hc)).2.2.2 ch hch).1

theorem cleanList_comps {comps : List Str} (h : ∀ c ∈ comps, cleanNameB c = true) :
    ∀ c ∈ comps, c ≠ [] ∧ c ≠ ['.'] ∧ c ≠ ['.', '.'] := by
  intro c hc
  have := cleanNameB_spec (h c hc)
  exact ⟨this.1, this.2.1, this.2.2.1⟩

theorem isabs_joinSlash_clean {comps : List Str} (x : Str) (rest : List Str)
    (hx : comps = x :: rest) (h : ∀ c ∈ comps, cleanNameB c = true) :
    isabs (joinSlash comps) = false := by
  subst hx
  have hs := cleanNameB_spec (h x (by simp))
  exact isabs_joinSlash x rest hs.1 fun ch hch => (hs.2.2.2 ch hch).1

theorem initialSlashes_clean {comps : List Str} (x : Str) (rest : List Str)
    (hx : comps = x :: rest) (h : ∀ c ∈ comps, cleanNameB c = true) :
    initialSlashes (joinSlash comps) = 0 := by
  unfold initialSlashes
  rw [isabs_joinSlash_clean x rest hx h]
  simp

/-- On clean components, `normpath` fixes the joined path. -/
theorem normpath_clean (comps : List Str) (x : Str) (rest : List Str)
    (hx : comps = x :: rest) (h : ∀ c ∈ comps, cleanNameB c = true) :
    normpath (joinSlash comps) = joinSlash comps := by
  have hne : joinSlash comps ≠ [] := by
    subst hx
    exact joinSlash_ne_nil x rest (cleanNameB_spec (h x (by simp))).1
  have his : initialSlashes (joinSlash comps) = 0 := initialSlashes_clean x rest hx h
  have hsplit : splitSlash (joinSlash comps) = comps :=
    splitSlash_joinSlash comps (cleanList_no_slash h) (by rw [hx]; simp)
  have hns : normSteps (decide (initialSlashes (joinSlash comps) ≠ 0)) []
      (splitSlash (joinSlash comps)) = comps := by
    rw [hsplit]
    rw [normSteps_clean _ comps [] (cleanList_comps h)]
    simp
  unfold normpath
  rw [if_neg hne]
  rw [his]
  rw [show (List.replicate 0 '/' : Str) = [] from rfl]
  rw [show (decide ((0 : Nat) ≠ 0)) = false from rfl]
  rw [hsplit, normSteps_clean _ comps [] (cleanList_comps h)]
  simp only [List.nil_append]
  rw [if_neg hne]

theorem joinSlash_head_ne_slash {comps : List Str} (x : Str) (rest : List Str)
    (hx : comps = x :: rest) (h : ∀ c ∈ comps, cleanNameB c = true) :
    ∀ t, joinSlash comps ≠ '/' :: t := by
  intro t ht
  subst hx
  have hxs := cleanNameB_spec (h x (by simp))
  cases hx2 : x with
  | nil => exact hxs.1 hx2
  | cons c cs =>
    have hc : c ≠ '/' := by
      rw [hx2] at hxs
      exact (hxs.2.2.2 c (by simp)).1
    cases rest with
    | nil =>
      rw [show joinSlash [x] = x from rfl, hx2] at ht
      injection ht with h1 _
      exact hc h1
    | cons y ys =>
      rw [show joinSlash (x :: y :: ys) = x ++ '/' :: joinSlash (y :: ys) from rfl,
        hx2, List.cons_append] at ht
      injection ht with h1 _
      exact hc h1

/-- On clean absolute components, `normpath` fixes `'/' :: joined`. -/
theorem normpath_abs_clean (comps : List Str) (x : Str) (rest : List Str)
    (hx : comps = x :: rest) (h : ∀ c ∈ comps, cleanNameB c = true) :
    normpath ('/' :: joinSlash comps) = '/' :: joinSlash comps := by
  have his : initialSlashes ('/' :: joinSlash comps) = 1 := by
    unfold initialSlashes
    rw [show isabs ('/' :: joinSlash comps) = true from by unfold isabs; simp]
    rw [if_pos rfl, if_neg ?hcond]
    case hcond =>
      rintro ⟨h2, _⟩
      have h4 : (['/'] : Str).isPrefixOf (joinSlash comps) = true := by
        simpa [List.isPrefixOf] using h2
      cases hj : joinSlash comps with
      | nil =>
        rw [hj] at h4
        simp [List.isPrefixOf] at h4
      | cons a as =>
        rw [hj] at h4
        simp [List.isPrefixOf] at h4
        subst h4
        exact joinSlash_head_ne_slash x rest hx h as hj
  have hsplit : splitSlash ('/' :: joinSlash comps) = [] :: comps := by
    have h5 := splitSlash_append_slash [] (joinSlash comps) (by simp)
    rw [show ([] : Str) ++ '/' :: joinSlash comps = '/' :: joinSlash comps from rfl] at h5
    rw [h5, splitSlash_joinSlash comps (cleanList_no_slash h) (by rw [hx]; simp)]
  unfold normpath
  rw [if_neg (by simp), his, hsplit]
  rw [show (decide ((1 : Nat) ≠ 0)) = true from rfl]
  unfold normSteps
  rw [if_pos (Or.inl rfl)]
  rw [normSteps_clean true comps [] (cleanList_comps h)]
  simp only [List.nil_append, List.replicate]
  rw [if_neg (by simp)]
  rfl

/-- On clean components, `posixpath.join` is component concatenation. -/
theorem posixJoin_clean (cs ds : List Str) (x y : Str) (rest1 rest2 : List Str)
    (hcs : cs = x :: rest1) (hds : ds = y :: rest2)
    (hc : ∀ c ∈ cs, cleanNameB c = true) (hd : ∀ c ∈ ds, cleanNameB c = true) :
    posixJoin (joinSlash cs) (joinSlash ds) = joinSlash (cs ++ ds) := by
  unfold posixJoin
  rw [isabs_joinSlash_clean y rest2 hds hd]
  rw [if_neg (by simp)]
  rw [if_neg ?hno]
  case hno =>
    rintro (h1 | h2)
    · rw [hcs] at h1 hc
      exact joinSlash_ne_nil x rest1 (cleanNameB_spec (hc x (by simp))).1 h1
    · exact getLast?_joinSlash_ne_slash cs (by rw [hcs]; simp) hc h2
  rw [joinSlash_append cs ds (by rw [hcs]; simp) (by rw [hds]; simp)]

theorem takeWhile_all_true {p : Char → Bool} : ∀ (l : Str), (∀ c ∈ l, p c = true) →
    l.takeWhile p = l
  | [], _ => rfl
  | c :: t, h => by
    simp only [List.takeWhile]
    rw [h c (by simp)]
    rw [takeWhile_all_true t fun x hx => h x (by simp [hx])]

/-- A component without slashes is its own basename. -/
theorem basename_no_slash {b : Str} (h : ∀ ch ∈ b, ch ≠ '/') : basename b = b := by
  unfold basename
  rw [takeWhile_all_true b.reverse fun c hc => by
    simp only [decide_eq_true_eq]
    exact h c (List.mem_reverse.1 hc)]
  simp

/-- On clean components, `abspath` against the absolute working directory
`'/' :: joined cwdc` is component concatenation. -/
theorem abspath_clean (cwdc comps : List Str) (x : Str) (rest : List Str)
    (hx : comps = x :: rest)
    (hcwd : ∀ c ∈ cwdc, cleanNameB c = true) (h : ∀ c ∈ comps, cleanNameB c = true) :
    abspath ('/' :: joinSlash cwdc) (joinSlash comps) =
      '/' :: joinSlash (cwdc ++ comps) := by
  unfold abspath
  rw [isabs_joinSlash_clean x rest hx h]
  rw [if_neg (by simp)]
  have hjoin : posixJoin ('/' :: joinSlash cwdc) (joinSlash comps) =
      '/' :: joinSlash (cwdc ++ comps) := by
    unfold posixJoin
    rw [isabs_joinSlash_clean x rest hx h]
    rw [if_neg (by simp)]
    cases cwdc with
    | nil =>
      rw [if_pos (Or.inr (by simp [joinSlash]))]
      rfl
    | cons w ws =>
      rw [if_neg ?hno]
      case hno =>
        rintro (h1 | h2)
        · exact absurd h1 (by simp)
        · rw [show ('/' :: joinSlash (w :: ws)) = ['/'] ++ joinSlash (w :: ws) from rfl,
            getLast?_append_ne_nil ['/'] _ (joinSlash_ne_nil w ws
              (cleanNameB_spec (hcwd w (by simp))).1)] at h2
          exact getLast?_joinSlash_ne_slash (w :: ws) (by simp) hcwd h2
      show '/' :: (joinSlash (w :: ws) ++ '/' :: joinSlash comps) = _
      rw [← joinSlash_append (w :: ws) comps (by simp) (by rw [hx]; simp)]
  rw [hjoin]
  exact normpath_abs_clean (cwdc ++ comps) ((cwdc ++ comps).headD [])
    ((cwdc ++ comps).tail) (by rw [hx]; cases cwdc <;> simp)
    (by intro c hc; rcases List.mem_append.1 hc with h1 | h2
        · exact hcwd c h1
        · exact h c h2)

theorem commonPrefixLen_self_append : ∀ (l m : List Str),
    commonPrefixLen l (l ++ m) = l.length
  | [], m => by
    cases m with
    | nil => rfl
    | cons y ys => rfl
  | x :: xs, m => by
    show commonPrefixLen (x :: xs) (x :: (xs ++ m)) = xs.length + 1
    unfold commonPrefixLen
    rw [if_pos rfl, commonPrefixLen_self_append xs m]

theorem filter_ne_nil_of_clean {l : List Str} (h : ∀ c ∈ l, c ≠ []) :
    l.filter (· ≠ []) = l := by
  induction l with
  | nil => rfl
  | cons x xs ih =>
    rw [List.filter_cons]
    rw [if_pos (by simpa using h x (by simp))]
    rw [ih fun c hc => h c (by simp [hc])]

/-- On clean components, `relpath(base/sub, base)` is the joined `sub`. -/
theorem relpath_clean (cwdc : List Str) (b : Str) (sub : List Str) (y : Str)
    (ysub : List Str) (hsub : sub = y :: ysub)
    (hcwd : ∀ c ∈ cwdc, cleanNameB c = true) (hb : cleanNameB b = true)
    (hsubc : ∀ c ∈ sub, cleanNameB c = true) :
    relpath ('/' :: joinSlash cwdc) (joinSlash (b :: sub)) b = joinSlash sub := by
  have hb' : ∀ c ∈ [b], cleanNameB c = true := by simpa using hb
  have hall : ∀ c ∈ b :: sub, cleanNameB c = true := by
    intro c hc
    rcases List.mem_cons.1 hc with h1 | h2
    · rw [h1]; exact hb
    · exact hsubc c h2
  have habs1 : abspath ('/' :: joinSlash cwdc) b = '/' :: joinSlash (cwdc ++ [b]) := by
    have := abspath_clean cwdc [b] b [] rfl hcwd hb'
    rw [show joinSlash [b] = b from rfl] at this
    exact this
  have habs2 : abspath ('/' :: joinSlash cwdc) (joinSlash (b :: sub)) =
      '/' :: joinSlash (cwdc ++ (b :: sub)) :=
    abspath_clean cwdc (b :: sub) b sub rfl hcwd hall
  have hsplit1 : (splitSlash (abspath ('/' :: joinSlash cwdc) b)).filter (· ≠ []) =
      cwdc ++ [b] := by
    rw [habs1]
    have h5 := splitSlash_append_slash [] (joinSlash (cwdc ++ [b])) (by simp)
    rw [show ([] : Str) ++ '/' :: joinSlash (cwdc ++ [b]) =
      '/' :: joinSlash (cwdc ++ [b]) from rfl] at h5
    rw [h5, splitSlash_joinSlash (cwdc ++ [b])
      (cleanList_no_slash (by
        intro c hc
        rcases List.mem_append.1 hc with h1 | h2
        · exact hcwd c h1
        · rw [List.mem_singleton.1 h2]; exact hb))
      (by cases cwdc <;> simp)]
    rw [List.filter_cons]
    rw [if_neg (by simp)]
    apply filter_ne_nil_of_clean
    intro c hc
    rcases List.mem_append.1 hc with h1 | h2
    · exact (cleanNameB_spec (hcwd c h1)).1
    · rw [List.mem_singleton.1 h2]
      exact (cleanNameB_spec hb).1
  have hsplit2 : (splitSlash (abspath ('/' :: joinSlash cwdc)
      (joinSlash (b :: sub)))).filter (· ≠ []) = (cwdc ++ [b]) ++ sub := by
    rw [habs2]
    have h5 := splitSlash_append_slash [] (joinSlash (cwdc ++ (b :: sub))) (by simp)
    rw [show ([] : Str) ++ '/' :: joinSlash (cwdc ++ (b :: sub)) =
      '/' :: joinSlash (cwdc ++ (b :: sub)) from rfl] at h5
    rw [h5, splitSlash_joinSlash (cwdc ++ (b :: sub))
      (cleanList_no_slash (by
        intro c hc
        rcases List.mem_append.1 hc with h1 | h2
        · exact hcwd c h1
        · exact hall c h2))
      (by cases cwdc <;> simp)]
    rw [List.filter_cons]
    rw [if_neg (by simp)]
    rw [filter_ne_nil_of_clean (by
      intro c hc
      rcases List.mem_append.1 hc with h1 | h2
      · exact (cleanNameB_spec (hcwd c h1)).1
      · exact (cleanNameB_spec (hall c h2)).1)]
    rw [show cwdc ++ (b :: sub) = (cwdc ++ [b]) ++ sub by simp]
  simp only [relpath]
  rw [hsplit1, hsplit2, commonPrefixLen_self_append (cwdc ++ [b]) sub]
  rw [List.drop_left]
  rw [Nat.sub_self]
  rw [show (List.replicate 0 ['.', '.'] : List Str) = [] from rfl]
  rw [List.nil_append]
  rw [if_neg (by rw [hsub]; simp)]

/-- The header path the encoder emits for a clean file path below a clean
base folder: the base folder's name followed by the relative components. -/
theorem encodedRelPath_clean (cwdc : List Str) (b : Str) (sub : List Str) (y : Str)
    (ysub : List Str) (hsub : sub = y :: ysub)
    (hcwd : ∀ c ∈ cwdc, cleanNameB c = true) (hb : cleanNameB b = true)
    (hsubc : ∀ c ∈ sub, cleanNameB c = true) :
    encodedRelPath ('/' :: joinSlash cwdc) (joinSlash (b :: sub)) b =
      joinSlash (b :: sub) := by
  have hbs := cleanNameB_spec hb
  unfold encodedRelPath
  rw [relpath_clean cwdc b sub y ysub hsub hcwd hb hsubc]
  rw [show (b : Str) = joinSlash [b] from rfl, normpath_clean [b] b [] rfl (by simpa using hb)]
  rw [show joinSlash [b] = b from rfl]
  rw [basename_no_slash fun ch hch => (hbs.2.2.2 ch hch).1]
  rw [if_pos ⟨hbs.1, hbs.2.1⟩]
  rw [show (b : Str) = joinSlash [b] from rfl]
  rw [posixJoin_clean [b] sub b y [] ysub rfl hsub (by simpa using hb) hsubc]
  rfl

theorem sorted_traverseChildren (cwd : Str) (excl incl : List Str) (b : Str)
    (ch : FSChildren) (cp : Str) :
    sortPairsBy (traverseChildren cwd excl incl b ch cp) =
      (sortPairsBy (childrenList ch)).map fun p =>
        (p.1, traverseNode cwd excl incl b p.2 (posixJoin cp p.1)) := by
  rw [traverseChildren_eq]
  exact sortPairsBy_map
    (fun name node => traverseNode cwd excl incl b node (posixJoin cp name))
    (childrenList ch)

theorem sorted_filesOfChildren (ch : FSChildren) :
    sortPairsBy (filesOfChildren ch) =
      (sortPairsBy (childrenList ch)).map fun p => (p.1, filesOfNode p.2) := by
  rw [filesOfChildren_eq]
  exact sortPairsBy_map (fun _ node => filesOfNode node) (childrenList ch)

/-- The encoder's output for one clean file below a clean base folder. -/
theorem write_entry_clean (cwdc : List Str) (b : Str) (sub : List Str) (y : Str)
    (ysub : List Str) (hsub : sub = y :: ysub)
    (hcwd : ∀ c ∈ cwdc, cleanNameB c = true) (hb : cleanNameB b = true)
    (hsubc : ∀ c ∈ sub, cleanNameB c = true) (content : Str) :
    write_file_to_output ('/' :: joinSlash cwdc) (joinSlash (b :: sub)) b content =
      entryText (joinSlash (b :: sub)) (langOf (joinSlash (b :: sub))) content := by
  unfold write_file_to_output entryText
  rw [encodedRelPath_clean cwdc b sub y ysub hsub hcwd hb hsubc]

mutual
/-- On a clean, exclusion-free, all-text subtree, the traversal writes
exactly one encoded entry per file, in the sorted emission order of
`filesOfNode`. -/
theorem encNode (cwdc excl : List Str) (b : Str)
    (hcwd : ∀ c ∈ cwdc, cleanNameB c = true) (hb : cleanNameB b = true) :
    ∀ (n : FSNode) (cs : List Str),
      (∀ c ∈ cs, cleanNameB c = true) →
      (nodeIsDir n = false → cs ≠ []) →
      nodeOKb excl n (joinSlash (b :: cs)) = true →
      (traverseNode ('/' :: joinSlash cwdc) excl [] b n (joinSlash (b :: cs))).out =
        ((filesOfNode n).map fun e =>
          entryText (joinSlash (b :: (cs ++ e.1)))
            (langOf (joinSlash (b :: (cs ++ e.1)))) e.2).flatten
  | .file content, cs, hclean, hne, hok => by
    obtain ⟨y, ysub, hcs⟩ : ∃ y ysub, cs = y :: ysub := by
      cases cs with
      | nil => exact absurd rfl (hne rfl)
      | cons a as => exact ⟨a, as, rfl⟩
    unfold nodeOKb at hok
    simp only [Bool.and_eq_true, Bool.not_eq_true'] at hok
    unfold traverseNode
    rw [if_neg (by
      rw [show nodeIsDir (FSNode.file content) = false from rfl, hok.1.1.1]
      simp)]
    rw [if_neg (by simp)]
    dsimp only
    rw [if_pos hok.1.1.2]
    show write_file_to_output ('/' :: joinSlash cwdc) (joinSlash (b :: cs)) b content = _
    rw [write_entry_clean cwdc b cs y ysub hcs hcwd hb hclean content]
    unfold filesOfNode
    simp
  | .dir ch, cs, hclean, _, hok => by
    unfold nodeOKb at hok
    simp only [Bool.and_eq_true, Bool.not_eq_true'] at hok
    obtain ⟨hexcl, hch⟩ := hok
    unfold traverseNode
    rw [if_neg (by
      rw [show nodeIsDir (FSNode.dir ch) = true from rfl, hexcl]
      simp)]
    rw [if_neg (by simp)]
    dsimp only
    rw [sorted_traverseChildren, List.map_map, concatTR_out, List.map_map]
    unfold filesOfNode
    rw [sorted_filesOfChildren, List.map_map, List.map_flatten, List.flatten_flatten,
      List.map_map, List.map_map]
    refine congrArg List.flatten (List.map_congr_left ?_)
    intro p hp
    have hmem := (mem_sortPairsBy p (childrenList ch)).1 hp
    have hinfo := @childrenOKb_mem excl ch (joinSlash (b :: cs)) hch p hmem
    have hpath : posixJoin (joinSlash (b :: cs)) p.1 = joinSlash (b :: (cs ++ [p.1])) := by
      have h2 : posixJoin (joinSlash (b :: cs)) p.1 =
          joinSlash ((b :: cs) ++ [p.1]) :=
        posixJoin_clean (b :: cs) [p.1] b p.1 cs [] rfl rfl
          (by intro c hc
              rcases List.mem_cons.1 hc with h1 | h2
              · rw [h1]; exact hb
              · exact hclean c h2)
          (by simpa using hinfo.1)
      rw [h2]
      rfl
    simp only [Function.comp]
    rw [hpath]
    rw [encChildren cwdc excl b hcwd hb ch cs hclean hch p hmem]
    rw [List.map_map]
    refine congrArg List.flatten (List.map_congr_left ?_)
    intro e _
    simp only [Function.comp]
    rw [show (cs ++ [p.1]) ++ e.1 = cs ++ (p.1 :: e.1) by simp]
/-- `encNode` for each member of a directory's child list. -/
theorem encChildren (cwdc excl : List Str) (b : Str)
    (hcwd : ∀ c ∈ cwdc, cleanNameB c = true) (hb : cleanNameB b = true) :
    ∀ (ch : FSChildren) (cs : List Str),
      (∀ c ∈ cs, cleanNameB c = true) →
      childrenOKb excl ch (joinSlash (b :: cs)) = true →
      ∀ p ∈ childrenList ch,
        (traverseNode ('/' :: joinSlash cwdc) excl [] b p.2
            (joinSlash (b :: (cs ++ [p.1])))).out =
          ((filesOfNode p.2).map fun e =>
            entryText (joinSlash (b :: ((cs ++ [p.1]) ++ e.1)))
              (langOf (joinSlash (b :: ((cs ++ [p.1]) ++ e.1)))) e.2).flatten
  | .nil, cs, _, _, p, hp => absurd hp (by simp [childrenList])
  | .cons name node rest, cs, hclean, hok, p, hp => by
    unfold childrenOKb at hok
    simp only [Bool.and_eq_true] at hok
    unfold childrenList at hp
    rcases List.mem_cons.1 hp with heq | hmem
    · subst heq
      have hpath : posixJoin (joinSlash (b :: cs)) name =
          joinSlash (b :: (cs ++ [name])) := by
        have h2 : posixJoin (joinSlash (b :: cs)) name =
            joinSlash ((b :: cs) ++ [name]) :=
          posixJoin_clean (b :: cs) [name] b name cs [] rfl rfl
            (by intro c hc
                rcases List.mem_cons.1 hc with h1 | h2
                · rw [h1]; exact hb
                · exact hclean c h2)
            (by simpa using hok.1.1)
        rw [h2]
        rfl
      exact encNode cwdc excl b hcwd hb node (cs ++ [name])
        (by intro c hc
            rcases List.mem_append.1 hc with h1 | h2
            · exact hclean c h1
            · rw [List.mem_singleton.1 h2]; exact hok.1.1)
        (by intro _; simp)
        (by rw [← hpath]; exact hok.1.2)
    · exact encChildren cwdc excl b hcwd hb rest cs hclean hok.2 p hmem
end

/-! Decoder-side helpers for the round trip. -/

theorem take_append_le {u : Str} (v : Str) : ∀ {n : Nat}, n ≤ u.length →
    (u ++ v).take n = u.take n := by
  induction u with
  | nil =>
    intro n h
    simp at h
    simp [h]
  | cons c t ih =>
    intro n h
    cases n with
    | zero => simp
    | succ m =>
      simp only [List.cons_append, List.take_succ_cons]
      rw [ih (by simpa using h)]

theorem isFence_append {u : Str} (v : Str) (h : 4 ≤ u.length) :
    isFence (u ++ v) = isFence u := by
  unfold isFence
  rw [take_append_le v h]

theorem get?_mid : ∀ (u : Str) (a : Char) (v : Str), (u ++ a :: v).get? u.length = some a
  | [], _, _ => rfl
  | _ :: t, a, v => get?_mid t a v

theorem takeWhile_prop {pr : Char → Bool} : ∀ (l : Str), ∀ a ∈ l.takeWhile pr, pr a = true
  | [], a, ha => by simp [List.takeWhile] at ha
  | c :: t, a, ha => by
    simp only [List.takeWhile] at ha
    cases hc : pr c
    · rw [hc] at ha
      simp at ha
    · rw [hc] at ha
      rcases List.mem_cons.1 ha with h1 | h2
      · rw [h1]; exact hc
      · exact takeWhile_prop t a h2

theorem dropWhile_head_false {pr : Char → Bool} : ∀ (l : Str) (d : Char) (l2 : Str),
    l.dropWhile pr = d :: l2 → pr d = false
  | [], d, l2, h => by simp [List.dropWhile] at h
  | c :: t, d, l2, h => by
    simp only [List.dropWhile] at h
    cases hc : pr c
    · rw [hc] at h
      injection h with h1 _
      rw [← h1]
      exact hc
    · rw [hc] at h
      exact dropWhile_head_false t d l2 h

theorem tw_dw_append {pr : Char → Bool} : ∀ (xs : Str) (c : Char) (ys : Str),
    (∀ a ∈ xs, pr a = true) → pr c = false →
    (xs ++ c :: ys).takeWhile pr = xs ∧ (xs ++ c :: ys).dropWhile pr = c :: ys
  | [], c, ys, _, hc => by
    simp only [List.nil_append, List.takeWhile, List.dropWhile]
    rw [hc]
    exact ⟨rfl, rfl⟩
  | x :: xs, c, ys, hall, hc => by
    have hx : pr x = true := hall x (by simp)
    have ih := tw_dw_append xs c ys (fun a ha => hall a (by simp [ha])) hc
    rw [List.cons_append, List.takeWhile_cons_of_pos hx, List.dropWhile_cons_of_pos hx,
      ih.1, ih.2]
    exact ⟨rfl, rfl⟩

theorem findFence_cons_none {x : Char} {t : Str} (h : findFence (x :: t) = none) :
    isFence (x :: t) = false ∧ findFence t = none := by
  unfold findFence at h
  by_cases hf : isFence (x :: t) = true
  · rw [if_pos hf] at h
    exact Option.noConfusion h
  · rw [if_neg hf] at h
    refine ⟨by simpa using hf, ?_⟩
    cases hfc : findFence t with
    | none => rfl
    | some k =>
      rw [hfc] at h
      simp at h

theorem findFence_append_boundary : ∀ (c : Str) (tail : Str), findFence c = none →
    findFence (c ++ '\n' :: '`' :: '`' :: '`' :: tail) = some c.length
  | [], tail, _ => by
    show findFence ('\n' :: '`' :: '`' :: '`' :: tail) = some 0
    unfold findFence
    rw [if_pos (by simp [isFence, List.take])]
  | x :: cc, tail, hnone => by
    obtain ⟨hxf, hcc⟩ := findFence_cons_none hnone
    show findFence (x :: (cc ++ '\n' :: '`' :: '`' :: '`' :: tail)) = some (cc.length + 1)
    unfold findFence
    rw [if_neg ?hnf]
    case hnf =>
      match cc, hxf with
      | [], _ => simp [isFence, List.take]
      | [a], _ => simp [isFence, List.take]
      | [a, b], _ => simp [isFence, List.take]
      | a :: b :: d :: r, hxf =>
        rw [show x :: ((a :: b :: d :: r) ++ '\n' :: '`' :: '`' :: '`' :: tail) =
          (x :: a :: b :: d :: r) ++ '\n' :: '`' :: '`' :: '`' :: tail from rfl]
        rw [isFence_append _ (by simp)]
        simp [hxf]
    rw [findFence_append_boundary cc tail hcc]
    rfl

theorem skipWs_parts (xs : Str) (ch : Char) (ys : Str)
    (hxs : ∀ a ∈ xs, isPySpace a = true) (hch : isPySpace ch = false) :
    (skipWs (xs ++ ch :: ys)).1 = xs ∧ (skipWs (xs ++ ch :: ys)).2 = ch :: ys := by
  have h := tw_dw_append xs ch ys hxs hch
  unfold skipWs
  exact ⟨h.1, h.2⟩

theorem expectTok_hash (ys : Str) :
    expectTok "###".toList ('#' :: '#' :: '#' :: ys) = some ys := by
  unfold expectTok
  rw [if_pos ?h]
  case h =>
    show List.isPrefixOf ['#', '#', '#'] ('#' :: '#' :: '#' :: ys) = true
    simp [List.isPrefixOf]
  show some (List.drop 3 ('#' :: '#' :: '#' :: ys)) = some ys
  rfl

theorem expectTok_stars (ys : Str) :
    expectTok "**".toList ('*' :: '*' :: ys) = some ys := by
  unfold expectTok
  rw [if_pos ?h]
  case h =>
    show List.isPrefixOf ['*', '*'] ('*' :: '*' :: ys) = true
    simp [List.isPrefixOf]
  show some (List.drop 2 ('*' :: '*' :: ys)) = some ys
  rfl

theorem expectTok_bt (ys : Str) :
    expectTok "`".toList ('`' :: ys) = some ys := by
  unfold expectTok
  rw [if_pos ?h]
  case h =>
    show List.isPrefixOf ['`'] ('`' :: ys) = true
    simp [List.isPrefixOf]
  show some (List.drop 1 ('`' :: ys)) = some ys
  rfl

theorem expectTok_fence (ys : Str) :
    expectTok "```".toList ('`' :: '`' :: '`' :: ys) = some ys := by
  unfold expectTok
  rw [if_pos ?h]
  case h =>
    show List.isPrefixOf ['`', '`', '`'] ('`' :: '`' :: '`' :: ys) = true
    simp [List.isPrefixOf]
  show some (List.drop 3 ('`' :: '`' :: '`' :: ys)) = some ys
  rfl

theorem skipWs_star (ys : Str) : skipWs (' ' :: '*' :: ys) = ([' '], '*' :: ys) := by
  have h := @tw_dw_append isPySpace [' '] '*' ys (by decide) (by decide)
  unfold skipWs
  rw [show (' ' :: '*' :: ys : Str) = [' '] ++ '*' :: ys from rfl, h.1, h.2]

theorem skipWs_nnbt (ys : Str) :
    skipWs ('\n' :: '\n' :: '`' :: ys) = (['\n', '\n'], '`' :: ys) := by
  have h := @tw_dw_append isPySpace ['\n', '\n'] '`' ys (by decide) (by decide)
  rw [show ('\n' :: '\n' :: '`' :: ys : Str) = ['\n', '\n'] ++ '`' :: ys from rfl]
  unfold skipWs
  rw [h.1, h.2]

theorem takePath_entry (p tl : Str) (hp : p ≠ []) (hpb : ∀ a ∈ p, a ≠ '`') :
    takePath (p ++ '`' :: tl) = some (p, tl) := by
  have htw := @tw_dw_append (fun a => decide (a ≠ '`')) p '`' tl
    (fun a ha => by simpa using hpb a ha) (by decide)
  unfold takePath
  rw [htw.1, if_neg hp, List.drop_left]
  rfl

theorem contentFrom_entry (c tl : Str) (hc : findFence c = none) :
    contentFrom (c ++ '\n' :: '`' :: '`' :: '`' :: tl) = some (c, tl) := by
  unfold contentFrom
  rw [findFence_append_boundary c tl hc]
  show some ((c ++ '\n' :: '`' :: '`' :: '`' :: tl).take c.length,
    (c ++ '\n' :: '`' :: '`' :: '`' :: tl).drop (c.length + 4)) = some (c, tl)
  rw [take_append_le _ (Nat.le_refl _), List.take_length]
  rw [show (c ++ '\n' :: '`' :: '`' :: '`' :: tl : Str) =
    (c ++ ['\n', '`', '`', '`']) ++ tl by simp]
  rw [show c.length + 4 = (c ++ ['\n', '`', '`', '`']).length by simp]
  rw [List.drop_left]

theorem langContent_entry (l c tl : Str)
    (hl : ∀ a ∈ l, isPySpace a = false) (hc : findFence c = none) :
    langContent (l ++ '\n' :: (c ++ '\n' :: '`' :: '`' :: '`' :: tl)) =
      some (c, tl) := by
  have hdropOK : ∀ (u : Str), u.length = l.length →
      (u ++ '\n' :: (c ++ '\n' :: '`' :: '`' :: '`' :: tl)).drop (l.length + 1) =
        c ++ '\n' :: '`' :: '`' :: '`' :: tl := by
    intro u hu
    rw [show (u ++ '\n' :: (c ++ '\n' :: '`' :: '`' :: '`' :: tl) : Str) =
      (u ++ ['\n']) ++ (c ++ '\n' :: '`' :: '`' :: '`' :: tl) by simp]
    rw [show l.length + 1 = (u ++ ['\n']).length by simp [hu]]
    rw [List.drop_left]
  by_cases hw : l.takeWhile isWordChar = l
  · have hallw : ∀ a ∈ l, isWordChar a = true := by
      intro a ha
      rw [← hw] at ha
      exact takeWhile_prop l a ha
    have htw := @tw_dw_append isWordChar l '\n'
      (c ++ '\n' :: '`' :: '`' :: '`' :: tl) hallw (by decide)
    unfold langContent
    rw [htw.1]
    rw [show tryLangAt (l ++ '\n' :: (c ++ '\n' :: '`' :: '`' :: '`' :: tl))
        l.length = some (c, tl) from ?try1]
    case try1 =>
      unfold tryLangAt
      rw [if_pos (get?_mid l '\n' _)]
      rw [hdropOK l rfl]
      exact contentFrom_entry c tl hc
  · have hsplit : l = l.takeWhile isWordChar ++ l.dropWhile isWordChar :=
      (List.takeWhile_append_dropWhile isWordChar l).symm
    cases hd : l.dropWhile isWordChar with
    | nil =>
      exfalso
      rw [hd, List.append_nil] at hsplit
      exact hw hsplit.symm
    | cons d l2 =>
      rw [hd] at hsplit
      have hdfalse : isWordChar d = false := dropWhile_head_false l d l2 hd
      have hdl : d ∈ l := by
        rw [hsplit]
        simp
      have hdnn : d ≠ '\n' := by
        intro hEq
        have := hl d hdl
        rw [hEq] at this
        simp [isPySpace] at this
      have hallw : ∀ a ∈ l.takeWhile isWordChar, isWordChar a = true :=
        takeWhile_prop l
      have hshape2 : l ++ '\n' :: (c ++ '\n' :: '`' :: '`' :: '`' :: tl) =
          l.takeWhile isWordChar ++ d ::
            (l2 ++ '\n' :: (c ++ '\n' :: '`' :: '`' :: '`' :: tl)) := by
        conv_lhs => rw [hsplit]
        simp
      have htw1 := @tw_dw_append isWordChar (l.takeWhile isWordChar) d
        (l2 ++ '\n' :: (c ++ '\n' :: '`' :: '`' :: '`' :: tl)) hallw hdfalse
      unfold langContent
      rw [show tryLangAt (l ++ '\n' :: (c ++ '\n' :: '`' :: '`' :: '`' :: tl))
          ((l ++ '\n' :: (c ++ '\n' :: '`' :: '`' :: '`' :: tl)).takeWhile
            isWordChar).length = none from ?tryA]
      case tryA =>
        rw [hshape2, htw1.1]
        unfold tryLangAt
        rw [if_neg ?hne]
        case hne =>
          rw [get?_mid]
          simp [hdnn]
      have htwB := @tw_dw_append (fun a => !isPySpace a) l '\n'
        (c ++ '\n' :: '`' :: '`' :: '`' :: tl)
        (fun a ha => by simp [hl a ha]) (by decide)
      rw [htwB.1]
      rw [show tryLangAt (l ++ '\n' :: (c ++ '\n' :: '`' :: '`' :: '`' :: tl))
          l.length = some (c, tl) from ?tryB]
      case tryB =>
        unfold tryLangAt
        rw [if_pos (get?_mid l '\n' _)]
        rw [hdropOK l rfl]
        exact contentFrom_entry c tl hc

/-- Decoding one encoded entry: the pattern matches at the start of the
entry text (after any leading whitespace) and captures exactly the
path and the content, leaving the trailing blank separator. -/
theorem matchAt_entry (wsp p l c rest : Str)
    (hws : ∀ a ∈ wsp, isPySpace a = true)
    (hp : p ≠ []) (hpb : ∀ a ∈ p, a ≠ '`')
    (hl : ∀ a ∈ l, isPySpace a = false)
    (hc : findFence c = none) :
    matchAt (wsp ++ entryText p l c ++ rest) =
      some (p, c, '\n' :: '\n' :: rest) := by
  have hshape : wsp ++ entryText p l c ++ rest =
      wsp ++ '#' :: '#' :: '#' :: ' ' :: '*' :: '*' :: '`' ::
        (p ++ '`' :: '*' :: '*' :: '\n' :: '\n' :: '`' :: '`' :: '`' ::
          (l ++ '\n' :: (c ++ '\n' :: '`' :: '`' :: '`' :: '\n' :: '\n' :: rest))) := by
    simp [entryText]
  rw [hshape]
  have e1 : ∀ ys, (skipWs (wsp ++ '#' :: ys)).2 = '#' :: ys :=
    fun ys => (skipWs_parts wsp '#' ys hws (by decide)).2
  have e2 : ∀ tl, takePath (p ++ '`' :: tl) = some (p, tl) :=
    fun tl => takePath_entry p tl hp hpb
  have e3 : ∀ tl, langContent (l ++ '\n' ::
      (c ++ '\n' :: '`' :: '`' :: '`' :: tl)) = some (c, tl) :=
    fun tl => langContent_entry l c tl hl hc
  unfold matchAt
  simp only [e1, expectTok_hash, skipWs_star, expectTok_stars, expectTok_bt, e2,
    skipWs_nnbt, expectTok_fence, e3,
    (by decide : (['\n', '\n'] : Str).getLast? = some '\n'),
    eq_self_iff_true, if_true]

/-- The `finditer` scan over a tail of well-formed encoded entries that
follows a newline. -/
theorem scan_entries_tail : ∀ (es : List (Str × Str × Str)),
    (∀ e ∈ es, e.1 ≠ [] ∧ (∀ a ∈ e.1, a ≠ '`') ∧
      (∀ a ∈ e.2.1, isPySpace a = false) ∧ findFence e.2.2 = none) →
    scanEntries true ('\n' ::
      (es.map fun e2 => entryText e2.1 e2.2.1 e2.2.2).flatten) =
      es.map fun e2 => (e2.1, e2.2.2)
  | [], _ => by decide
  | e :: es, h => by
    obtain ⟨p, l, c⟩ := e
    obtain ⟨hp, hpb, hl, hc⟩ := h (p, l, c) (by simp)
    have hm := matchAt_entry ['\n'] p l c
      ((es.map fun e2 => entryText e2.1 e2.2.1 e2.2.2).flatten)
      (by decide) hp hpb hl hc
    have hm2 : matchAt ('\n' :: (entryText p l c ++
        (es.map fun e2 => entryText e2.1 e2.2.1 e2.2.2).flatten)) =
        some (p, c, '\n' :: '\n' ::
          (es.map fun e2 => entryText e2.1 e2.2.1 e2.2.2).flatten) := hm
    rw [List.map_cons, List.flatten_cons]
    rw [scanEntries_true_eq, hm2]
    show (p, c) :: scanEntries false ('\n' :: '\n' ::
      (es.map fun e2 => entryText e2.1 e2.2.1 e2.2.2).flatten) = _
    rw [scanEntries_false_eq]
    show (p, c) :: scanEntries true ('\n' ::
      (es.map fun e2 => entryText e2.1 e2.2.1 e2.2.2).flatten) = _
    rw [scan_entries_tail es (fun e2 he2 => h e2 (by simp [he2]))]
    rfl

/-- The `finditer` scan over a bundle that is a concatenation of
well-formed encoded entries: it reports exactly the (path, content)
pairs, in order. -/
theorem scan_entries (es : List (Str × Str × Str))
    (h : ∀ e ∈ es, e.1 ≠ [] ∧ (∀ a ∈ e.1, a ≠ '`') ∧
      (∀ a ∈ e.2.1, isPySpace a = false) ∧ findFence e.2.2 = none) :
    scanEntries true ((es.map fun e2 => entryText e2.1 e2.2.1 e2.2.2).flatten) =
      es.map fun e2 => (e2.1, e2.2.2) := by
  cases es with
  | nil => rfl
  | cons e es2 =>
    obtain ⟨p, l, c⟩ := e
    obtain ⟨hp, hpb, hl, hc⟩ := h (p, l, c) (by simp)
    have hm := matchAt_entry [] p l c
      ((es2.map fun e2 => entryText e2.1 e2.2.1 e2.2.2).flatten)
      (by simp) hp hpb hl hc
    have hm2 : matchAt (entryText p l c ++
        (es2.map fun e2 => entryText e2.1 e2.2.1 e2.2.2).flatten) =
        some (p, c, '\n' :: '\n' ::
          (es2.map fun e2 => entryText e2.1 e2.2.1 e2.2.2).flatten) := hm
    rw [List.map_cons, List.flatten_cons]
    rw [scanEntries_true_eq, hm2]
    show (p, c) :: scanEntries false ('\n' :: '\n' ::
      (es2.map fun e2 => entryText e2.1 e2.2.1 e2.2.2).flatten) = _
    rw [scanEntries_false_eq]
    show (p, c) :: scanEntries true ('\n' ::
      (es2.map fun e2 => entryText e2.1 e2.2.1 e2.2.2).flatten) = _
    rw [scan_entries_tail es2 (fun e2 he2 => h e2 (by simp [he2]))]
    rfl

theorem dropWhile_all_false {pr : Char → Bool} : ∀ (s : Str),
    (∀ a ∈ s, pr a = false) → s.dropWhile pr = s
  | [], _ => rfl
  | c :: t, h => by
    rw [List.dropWhile_cons, if_neg (by simp [h c (by simp)])]

theorem pyStrip_eq_self {s : Str} (h : ∀ a ∈ s, isPySpace a = false) :
    pyStrip s = s := by
  unfold pyStrip
  rw [dropWhile_all_false s h,
    dropWhile_all_false s.reverse (fun a ha => h a (List.mem_reverse.1 ha)),
    List.reverse_reverse]

theorem joinSlash_chars : ∀ (comps : List Str), ∀ a ∈ joinSlash comps,
    a = '/' ∨ ∃ x ∈ comps, a ∈ x
  | [], a, ha => by simp [joinSlash] at ha
  | [x], a, ha => Or.inr ⟨x, by simp, ha⟩
  | x :: y :: rest, a, ha => by
    rw [show joinSlash (x :: y :: rest) = x ++ '/' :: joinSlash (y :: rest)
      from rfl] at ha
    rcases List.mem_append.1 ha with h1 | h2
    · exact Or.inr ⟨x, by simp, h1⟩
    · rcases List.mem_cons.1 h2 with h3 | h4
      · exact Or.inl h3
      · rcases joinSlash_chars (y :: rest) a h4 with h5 | ⟨z, hz, haz⟩
        · exact Or.inl h5
        · exact Or.inr ⟨z, List.mem_cons_of_mem x hz, haz⟩

theorem lookupDefault_mem (table : List (Str × Str)) (key dflt : Str) :
    lookupDefault table key dflt = dflt ∨
      ∃ kv ∈ table, lookupDefault table key dflt = kv.2 := by
  unfold lookupDefault
  cases hf : table.find? (fun kv => kv.1 == key) with
  | none => exact Or.inl rfl
  | some kv => exact Or.inr ⟨kv, List.mem_of_find?_eq_some hf, rfl⟩

theorem langOf_nonspace (fp : Str) : ∀ a ∈ langOf fp, isPySpace a = false := by
  unfold langOf
  rcases lookupDefault_mem CODE_FENCE_LOOKUP (lowerStr (extOf fp)) "text".toList
    with h | ⟨kv, hkv, h⟩
  · rw [h]
    decide
  · rw [h]
    have hall : ∀ kv2 ∈ CODE_FENCE_LOOKUP, ∀ a ∈ kv2.2, isPySpace a = false := by
      decide
    exact hall kv hkv

mutual
/-- Under the round-trip side conditions, every emitted file has clean
path components and fence-free content. -/
theorem filesOfNode_ok (excl : List Str) : ∀ (n : FSNode) (cp : Str),
    nodeOKb excl n cp = true → ∀ f ∈ filesOfNode n,
      (∀ comp ∈ f.1, cleanNameB comp = true) ∧ findFence f.2 = none
  | .file content, cp, h, f, hf => by
    unfold nodeOKb at h
    simp only [Bool.and_eq_true] at h
    unfold filesOfNode at hf
    simp at hf
    subst hf
    refine ⟨by simp, ?_⟩
    exact Option.isNone_iff_eq_none.1 h.1.2
  | .dir ch, cp, h, f, hf => by
    unfold nodeOKb at h
    simp only [Bool.and_eq_true] at h
    unfold filesOfNode at hf
    rw [List.mem_flatten] at hf
    obtain ⟨l, hl, hfl⟩ := hf
    rw [List.mem_map] at hl
    obtain ⟨pp, hpp, rfl⟩ := hl
    rw [mem_sortPairsBy] at hpp
    rw [filesOfChildren_eq ch, List.mem_map] at hpp
    obtain ⟨q, hq, rfl⟩ := hpp
    simp only [] at hfl
    rw [List.mem_map] at hfl
    obtain ⟨e, he, rfl⟩ := hfl
    have hrec := filesOfChildren_ok excl ch cp h.2 q hq e he
    refine ⟨?_, hrec.2.1⟩
    intro comp hcomp
    rcases List.mem_cons.1 hcomp with h1 | h2
    · rw [h1]
      exact hrec.2.2
    · exact hrec.1 comp h2
/-- `filesOfNode_ok` over the children of a directory. -/
theorem filesOfChildren_ok (excl : List Str) : ∀ (ch : FSChildren) (cp : Str),
    childrenOKb excl ch cp = true → ∀ q ∈ childrenList ch,
      ∀ e ∈ filesOfNode q.2,
        (∀ comp ∈ e.1, cleanNameB comp = true) ∧ findFence e.2 = none ∧
          cleanNameB q.1 = true
  | .nil, _, _, q, hq, _, _ => by simp [childrenList] at hq
  | .cons name node rest, cp, h, q, hq, e, he => by
    unfold childrenOKb at h
    simp only [Bool.and_eq_true] at h
    unfold childrenList at hq
    rcases List.mem_cons.1 hq with heq | hmem
    · subst heq
      have hrec := filesOfNode_ok excl node (posixJoin cp name) h.1.2 e he
      exact ⟨hrec.1, hrec.2, h.1.1⟩
    · exact filesOfChildren_ok excl rest cp h.2 q hmem e he
end

theorem isPrefixOf_cons_ne {a b : Char} (as bs : Str) (h : (a == b) = false) :
    List.isPrefixOf (a :: as) (b :: bs) = false := by
  simp [List.isPrefixOf, h]

theorem skipPrompt_keep (s : Str)
    (h : prompt_marker.isPrefixOf (s.dropWhile isPySpace) = false) :
    skipPrompt s = s := by
  unfold skipPrompt
  rw [h]
  rfl

theorem skipPrompt_nil : skipPrompt [] = [] := by decide

theorem skipPrompt_hash (t : Str) : skipPrompt ('#' :: t) = '#' :: t := by
  refine skipPrompt_keep _ ?_
  rw [List.dropWhile_cons, if_neg (by decide)]
  refine isPrefixOf_cons_ne _ _ ?_
  decide

/-- Processing a list of captured entries whose paths are already
stripped, normalised, relative and `'..'`-free: every entry is written,
in order, with no warning and no error. -/
theorem process_safe_entries (out : Str) : ∀ (ws : List (Str × Str))
    (st : SliceResult),
    (∀ e ∈ ws, pyStrip e.1 = e.1 ∧ normpath e.1 = e.1 ∧ isabs e.1 = false ∧
      (splitSlash e.1).contains ['.', '.'] = false) →
    processEntriesFrom out st ws =
      ⟨st.writes ++ ws.map (fun e => (posixJoin out e.1, e.2)),
        st.warnings, st.errors⟩
  | [], st, _ => by simp [processEntriesFrom]
  | w :: ws, st, h => by
    obtain ⟨h1, h2, h3, h4⟩ := h w (by simp)
    show processEntriesFrom out (processEntry out st w) ws = _
    rw [process_safe_entries out ws (processEntry out st w)
      (fun e he => h e (by simp [he]))]
    unfold processEntry
    rw [h1, h2, h3, h4]
    simp

/-- A bundle that is a concatenation of encoded entries never begins with
the preamble marker, so the preamble-skipping prologue keeps it whole. -/
theorem skipPrompt_entries (es : List (Str × Str × Str)) :
    skipPrompt ((es.map fun e2 => entryText e2.1 e2.2.1 e2.2.2).flatten) =
      (es.map fun e2 => entryText e2.1 e2.2.1 e2.2.2).flatten := by
  cases es with
  | nil => exact skipPrompt_nil
  | cons e es2 =>
    rw [List.map_cons, List.flatten_cons]
    exact skipPrompt_hash _

set_option maxHeartbeats 1000000 in
/-- C2 (amended): encoding a directory tree of text files whose contents
are fence-free and then decoding the bundle reproduces every file, at the
base-folder-prefixed relative path, with its exact content, and with no
warning and no error. -/
theorem roundtrip_amended (cwdc : List Str) (b : Str) (ch : FSChildren)
    (outputFolder : Str) (effExcl : List Str)
    (hcwd : ∀ comp ∈ cwdc, cleanNameB comp = true)
    (hb : cleanNameB b = true)
    (hok : nodeOKb effExcl (FSNode.dir ch) b = true) :
    sliceOneFile outputFolder
      (concatenateOutput ('/' :: joinSlash cwdc) effExcl [] false
        [⟨b, FSNode.dir ch⟩] AI_INSTRUCTION_PROMPT) =
      ⟨(filesOfNode (FSNode.dir ch)).map fun f =>
        (posixJoin outputFolder (joinSlash (b :: f.1)), f.2), [], 0⟩ := by
  have hbspec := cleanNameB_spec hb
  have hnb : normpath b = b :=
    normpath_clean [b] b [] rfl (by
      intro comp hcomp
      rw [List.mem_singleton] at hcomp
      rw [hcomp]
      exact hb)
  have henc : (traverseNode ('/' :: joinSlash cwdc) effExcl [] b
      (FSNode.dir ch) b).out =
      ((filesOfNode (FSNode.dir ch)).map fun f =>
        entryText (joinSlash (b :: f.1)) (langOf (joinSlash (b :: f.1)))
          f.2).flatten :=
    encNode cwdc effExcl b hcwd hb (FSNode.dir ch) [] (by simp)
      (fun hfalse => by simp [nodeIsDir] at hfalse) hok
  have hout : concatenateOutput ('/' :: joinSlash cwdc) effExcl [] false
      [⟨b, FSNode.dir ch⟩] AI_INSTRUCTION_PROMPT =
      ((filesOfNode (FSNode.dir ch)).map fun f =>
        entryText (joinSlash (b :: f.1)) (langOf (joinSlash (b :: f.1)))
          f.2).flatten := by
    show (concatTR [traverseNode ('/' :: joinSlash cwdc) effExcl []
      (baseFolderFor (normpath b) (FSNode.dir ch)) (FSNode.dir ch)
      (normpath b)]).out = _
    rw [hnb]
    show (traverseNode ('/' :: joinSlash cwdc) effExcl [] b
      (FSNode.dir ch) b).out ++ [] = _
    rw [List.append_nil]
    exact henc
  have hclean : ∀ f ∈ filesOfNode (FSNode.dir ch),
      ∀ comp ∈ (b :: f.1), cleanNameB comp = true := by
    intro f hf comp hcomp
    rcases List.mem_cons.1 hcomp with h1 | h2
    · rw [h1]
      exact hb
    · exact (filesOfNode_ok effExcl (FSNode.dir ch) b hok f hf).1 comp h2
  have htrip : ∀ t ∈ (filesOfNode (FSNode.dir ch)).map fun f =>
      (joinSlash (b :: f.1), langOf (joinSlash (b :: f.1)), f.2),
      t.1 ≠ [] ∧ (∀ a ∈ t.1, a ≠ '`') ∧ (∀ a ∈ t.2.1, isPySpace a = false) ∧
        findFence t.2.2 = none := by
    intro t ht
    rw [List.mem_map] at ht
    obtain ⟨f, hf, rfl⟩ := ht
    refine ⟨joinSlash_ne_nil b f.1 hbspec.1, ?_, langOf_nonspace _,
      (filesOfNode_ok effExcl (FSNode.dir ch) b hok f hf).2⟩
    intro a ha
    rcases joinSlash_chars (b :: f.1) a ha with h1 | ⟨x, hx, hax⟩
    · subst h1
      decide
    · exact ((cleanNameB_spec (hclean f hf x hx)).2.2.2 a hax).2.1
  have hsafe : ∀ e ∈ (filesOfNode (FSNode.dir ch)).map fun f =>
      (joinSlash (b :: f.1), f.2),
      pyStrip e.1 = e.1 ∧ normpath e.1 = e.1 ∧ isabs e.1 = false ∧
        (splitSlash e.1).contains ['.', '.'] = false := by
    intro e he
    rw [List.mem_map] at he
    obtain ⟨f, hf, rfl⟩ := he
    refine ⟨?_, normpath_clean (b :: f.1) b f.1 rfl (hclean f hf),
      isabs_joinSlash_clean b f.1 rfl (hclean f hf), ?_⟩
    · apply pyStrip_eq_self
      intro a ha
      rcases joinSlash_chars (b :: f.1) a ha with h1 | ⟨x, hx, hax⟩
      · subst h1
        decide
      · exact ((cleanNameB_spec (hclean f hf x hx)).2.2.2 a hax).2.2
    · rw [splitSlash_joinSlash (b :: f.1) (cleanList_no_slash (hclean f hf))
        (by simp)]
      have hnot : (['.', '.'] : Str) ∉ b :: f.1 := by
        intro hmem
        rcases List.mem_cons.1 hmem with h1 | h2
        · have h3 := hb
          rw [← h1] at h3
          exact absurd h3 (by decide)
        · exact absurd ((filesOfNode_ok effExcl (FSNode.dir ch) b hok f hf).1
            _ h2) (by decide)
      cases hcont : (b :: f.1).contains ['.', '.'] with
      | false => rfl
      | true => exact absurd (List.elem_iff.1 hcont) hnot
  unfold sliceOneFile
  rw [hout]
  rw [show ((filesOfNode (FSNode.dir ch)).map fun f =>
      entryText (joinSlash (b :: f.1)) (langOf (joinSlash (b :: f.1))) f.2) =
      (((filesOfNode (FSNode.dir ch)).map fun f =>
        (joinSlash (b :: f.1), langOf (joinSlash (b :: f.1)), f.2)).map
          fun t => entryText t.1 t.2.1 t.2.2) from by
    rw [List.map_map]
    rfl]
  rw [skipPrompt_entries ((filesOfNode (FSNode.dir ch)).map fun f =>
    (joinSlash (b :: f.1), langOf (joinSlash (b :: f.1)), f.2))]
  rw [scan_entries _ htrip]
  rw [List.map_map]
  rw [show (List.map ((fun e2 => (e2.1, e2.2.2)) ∘ fun f =>
      (joinSlash (b :: f.1), langOf (joinSlash (b :: f.1)), f.2))
      (filesOfNode (FSNode.dir ch))) =
      (List.map (fun f => (joinSlash (b :: f.1), f.2))
        (filesOfNode (FSNode.dir ch))) from rfl]
  rw [process_safe_entries outputFolder _ _ hsafe]
  simp

/-- C2 counterexample: the round trip is not exact for every tree of
text-classified files.  A markdown file whose content contains a line
that begins with a closing code fence is truncated by the decoder: the
bundle's lazy content capture stops at the first fence line. -/
theorem roundtrip_counterexample :
    (sliceOneFile "o".toList
      (concatenateOutput "/w".toList default_venv_patterns [] false
        [⟨"a".toList, FSNode.dir (FSChildren.cons "x.md".toList
          (FSNode.file "hello\n```\nworld".toList) FSChildren.nil)⟩]
        AI_INSTRUCTION_PROMPT)).writes =
      [("o/a/x.md".toList, "hello".toList)] ∧
    is_text_file "a/x.md".toList
      (some (fileChunk "hello\n```\nworld".toList)) = true ∧
    "hello".toList ≠ "hello\n```\nworld".toList := by
  refine ⟨?_, by decide, by decide⟩
  decide

/-- Witness for C2's amended statement: a one-file project round-trips
exactly. -/
theorem roundtrip_amended_witness :
    sliceOneFile "o".toList
      (concatenateOutput ('/' :: joinSlash []) default_venv_patterns [] false
        [⟨"a".toList, FSNode.dir (FSChildren.cons "m.py".toList
          (FSNode.file "print(1)".toList) FSChildren.nil)⟩]
        AI_INSTRUCTION_PROMPT) =
      ⟨[("o/a/m.py".toList, "print(1)".toList)], [], 0⟩ := by
  rw [roundtrip_amended [] "a".toList
    (FSChildren.cons "m.py".toList (FSNode.file "print(1)".toList)
      FSChildren.nil)
    "o".toList default_venv_patterns (by simp) (by decide) (by decide)]
  decide

/-- Witness for C5: swapping two exclusion patterns leaves the bundle
unchanged. -/
theorem encode_deterministic_witness :
    concatenateOutput "/w".toList [".git".toList, "venv".toList] [] false
      [⟨"a".toList, FSNode.dir (.cons "x.py".toList (FSNode.file "print(1)".toList) .nil)⟩]
      AI_INSTRUCTION_PROMPT =
    concatenateOutput "/w".toList ["venv".toList, ".git".toList] [] false
      [⟨"a".toList, FSNode.dir (.cons "x.py".toList (FSNode.file "print(1)".toList) .nil)⟩]
      AI_INSTRUCTION_PROMPT :=
  (encode_deterministic _ _ _ _ _ _ _ (by
    intro x
    simp only [List.mem_cons, List.mem_singleton]
    tauto)).1

end SlyCat
